import Mathlib

/-!
Verification development for the fastzip repository (Go): a parallel ZIP
archiver (archiver.go) and extractor (extractor source file), with an
internal file pool (internal/filepool/filepool.go) and a byte-counting,
cancellation-aware writer.

The Go code is shallowly embedded: file contents are lists of bytes
(modelled as Nat), paths are strings over a '/'-separated alphabet, the
filesystem touched by the extractor is an association list from resolved
path components to nodes, and fallible operations return Except.  Each
definition carries a comment pointing at the Go source it translates.
-/

/-- Error values distinguished by the Go code via os.IsNotExist / os.IsExist
checks; every other error is collapsed into the remaining constructors. -/
inductive Err where
  | notExist      -- ENOENT (os.IsNotExist true)
  | exist         -- EEXIST (os.IsExist true)
  | notEmpty      -- ENOTEMPTY from unlinking a non-empty directory
  | notDir        -- ENOTDIR from resolving through a non-directory
  | loop          -- ELOOP, too many symbolic links
  | outsideChroot -- the fmt.Errorf "cannot be archived/extracted outside of chroot"
  | ctxCancelled  -- a context error from ctx.Err()
  | ioErr         -- any other I/O failure
deriving DecidableEq, Repr

/-! ## The counting writer, from the source file holding countWriter

Go source:

  func (w countWriter) Write(p []byte) (n int, err error) \x7b
    if err = w.ctx.Err(); err == nil \x7b
      n, err = w.w.Write(p)
      atomic.AddInt64(w.written, int64(n))
    \x7d
    return n, err
  \x7d

The underlying writer is abstracted as a function from the buffer to the
pair (bytes accepted, optional error), exactly its Go io.Writer contract.
-/

/-- Result of one countWriter.Write call: bytes reported to the caller, the
returned error, and the new value of the shared written counter. -/
structure CountWriteResult where
  n : Nat
  err : Option Err
  written : Nat
deriving DecidableEq, Repr

/-- countWriter.Write: consult ctx.Err() first; when cancelled return (0, ctx
error) without touching the underlying writer or the counter; otherwise
perform the underlying write and add the reported byte count. -/
def countWriterWrite (ctxErr : Option Err) (w : List Nat → Nat × Option Err)
    (written : Nat) (p : List Nat) : CountWriteResult :=
  match ctxErr with
  | some e => { n := 0, err := some e, written := written }
  | none =>
    let r := w p
    { n := r.1, err := r.2, written := written + r.1 }

/-! ## FilePool buffers, from internal/filepool/filepool.go

A File is a memory buffer of configured size with an overflow file created
on demand.  Only the fields the claims observe are modelled: the configured
size, whether the in-memory buffer has been allocated, the write offset,
and whether the overflow file has been created on disk.  Write never fails
in the model (the Go error paths are os.Create / WriteAt failures). -/

structure FPFile where
  size : Nat        -- configured buffer size (filepool.File.size)
  bufAlloc : Bool   -- f.buf != nil
  w : Nat           -- f.w, the write offset
  spill : Bool      -- f.f != nil: the overflow file exists on disk
deriving DecidableEq, Repr

/-- newFile(dir, idx, size): no buffer allocated, no overflow file. -/
def fpNewFile (size : Nat) : FPFile :=
  { size := size, bufAlloc := false, w := 0, spill := false }

/-- len(f.buf): zero until allocated, then the configured size. -/
def FPFile.bufLen (f : FPFile) : Nat :=
  if f.bufAlloc then f.size else 0

/-- File.Write(p): allocate the buffer lazily (when size > 0), copy into the
in-memory window [f.w, len(buf)), and positional-write any remainder to the
overflow file, creating it on first use.  Only the length of p matters for
the fields modelled here, so the argument is the length. -/
def fpWrite (f : FPFile) (plen : Nat) : FPFile :=
  -- if f.buf == nil && f.size > 0: f.buf = make([]byte, f.size)
  let f1 : FPFile := if f.bufAlloc = false ∧ 0 < f.size then { f with bufAlloc := true } else f
  -- if f.w < int64(len(f.buf)): n = copy(f.buf[f.w:], p); p = p[n:]; f.w += n
  let n : Nat := if f1.w < f1.bufLen then min (f1.bufLen - f1.w) plen else 0
  -- if len(p) > 0: os.Create the overflow file if f.f == nil, then WriteAt
  if 0 < plen - n then
    { f1 with spill := true, w := f1.w + n + (plen - n) }
  else
    { f1 with w := f1.w + n }

/-- A sequence of Write calls. -/
def fpWrites (f : FPFile) (ps : List Nat) : FPFile :=
  ps.foldl fpWrite f

/-- File.reset (run by FilePool.Put): offsets to zero, CRC reset, and the
overflow file truncated to length zero but kept open and on disk. -/
def fpReset (f : FPFile) : FPFile :=
  { f with w := 0 }

/-! ### Facts about the buffer model -/

theorem fpWrite_size (f : FPFile) (p : Nat) : (fpWrite f p).size = f.size := by
  simp only [fpWrite, FPFile.bufLen]
  split_ifs <;> simp

theorem fpWrite_w (f : FPFile) (p : Nat) : (fpWrite f p).w = f.w + p := by
  simp only [fpWrite, FPFile.bufLen]
  split_ifs <;> simp_all <;> omega

theorem fpWrite_bufAlloc (f : FPFile) (p : Nat) :
    (fpWrite f p).bufAlloc = (f.bufAlloc || decide (0 < f.size)) := by
  simp only [fpWrite, FPFile.bufLen]
  split_ifs <;> simp_all

/-- With the configured size fixed, a single Write advances the offset by the
full buffer length and creates the overflow file exactly when the offset
passes the in-memory capacity. -/
theorem fpWrite_spill (B S : Nat) (f : FPFile) (hsz : f.size = B) (hw : f.w = S)
    (hsp : f.spill = decide (B < S)) (p : Nat) :
    (fpWrite f p).spill = decide (B < S + p) := by
  simp only [fpWrite, FPFile.bufLen]
  split_ifs <;> simp_all <;> omega

theorem fpWrites_inv (B : Nat) (ps : List Nat) : ∀ (S : Nat) (f : FPFile),
    f.size = B → f.w = S → f.spill = decide (B < S) →
    (fpWrites f ps).size = B ∧ (fpWrites f ps).w = S + ps.sum ∧
      (fpWrites f ps).spill = decide (B < S + ps.sum) := by
  induction ps with
  | nil => intro S f h1 h2 h3; simpa [fpWrites] using ⟨h1, h2, h3⟩
  | cons p ps ih =>
    intro S f h1 h2 h3
    have hstep := fpWrite_spill B S f h1 h2 h3 p
    have := ih (S + p) (fpWrite f p) (by rw [fpWrite_size, h1])
      (by rw [fpWrite_w, h2]) hstep
    simpa [fpWrites, Nat.add_assoc] using this

/-! ## Claim C6: the counting writer -/

/-- Claim C6: for every call to countWriter.Write, if the cancellation
context is already cancelled the call returns the context error, performs no
underlying write (the result does not depend on the underlying writer), and
leaves the byte counter unchanged; otherwise it performs the underlying
write and adds exactly the number of bytes the underlying writer reported
to the counter before returning the underlying result. -/
theorem claim_C6_countWriter (e : Err) (w w' : List Nat → Nat × Option Err)
    (written : Nat) (p : List Nat) :
    countWriterWrite (some e) w written p =
      { n := 0, err := some e, written := written } ∧
    countWriterWrite (some e) w written p = countWriterWrite (some e) w' written p ∧
    countWriterWrite none w written p =
      { n := (w p).1, err := (w p).2, written := written + (w p).1 } :=
  ⟨rfl, rfl, rfl⟩

/-! ## Claim C7: overflow-file existence for FilePool buffers

The claim reads: for every buffer with size B and every sequence of writes
totalling S bytes since the buffer was last reset, the overflow file exists
on disk iff S > B.  File.reset truncates the overflow file but keeps it on
disk (the file is removed only by FilePool.Close), so after a reset the
file can exist although no bytes have been written since; the claim fails
there.  For a buffer that has never spilled the claim's iff does hold, and
the amended claim quantifies over the writes since the buffer's creation. -/

/-- Claim C7 counterexample: buffer size B = 1; write 2 bytes (the overflow
file is created), then reset.  Zero bytes have been written since the last
reset, yet the overflow file still exists on disk, refuting the claimed
equivalence at this input. -/
theorem claim_C7_counterexample :
    ¬ ((fpReset (fpWrites (fpNewFile 1) [2])).spill = true ↔
        1 < (fpReset (fpWrites (fpNewFile 1) [2])).w) := by
  decide

/-- Claim C7 (amended): the overflow file of a FilePool buffer with prefix
size B exists on disk iff the writes since the buffer's creation total more
than B bytes; it is created on demand by the first write exceeding the
prefix and survives reset, which only zeroes the offset (and truncates the
file) without removing it. -/
theorem claim_C7_amended (B : Nat) (ps : List Nat) (f : FPFile) :
    ((fpWrites (fpNewFile B) ps).spill = true ↔ B < ps.sum) ∧
    (fpReset f).spill = f.spill ∧ (fpReset f).w = 0 := by
  refine ⟨?_, rfl, rfl⟩
  have h := fpWrites_inv B ps 0 (fpNewFile B) rfl rfl (by simp [fpNewFile])
  rw [h.2.2]
  simp

/-! ## Path strings

Go paths are strings over '/'-separated components.  filepath.Abs and
filepath.Join both run filepath.Clean, which drops empty and "."
components and resolves ".." lexically (".." at the root is discarded).
An absolute cleaned path is represented by its list of components; the
corresponding Go string is rendered back when the Go code compares
strings (strings.HasPrefix in the chroot checks). -/

/-- strings.HasPrefix(s, pre) on the underlying characters. -/
def strStarts : List Char → List Char → Bool
  | [], _ => true
  | _ :: _, [] => false
  | a :: pre, b :: s => a = b && strStarts pre s

/-- Split a character list on '/' into nonempty components. -/
def splitCharsAux : List Char → List Char → List String
  | acc, [] => if acc.isEmpty then [] else [String.mk acc.reverse]
  | acc, c :: rest =>
    if c = '/' then
      if acc.isEmpty then splitCharsAux [] rest
      else String.mk acc.reverse :: splitCharsAux [] rest
    else splitCharsAux (c :: acc) rest

/-- Components of a path string (empty components dropped, as Clean does). -/
def splitPath (s : String) : List String :=
  splitCharsAux [] s.data

/-- Does the path string start with the separator (is it absolute)? -/
def isAbsStr (s : String) : Bool :=
  match s.data with
  | '/' :: _ => true
  | _ => false

/-- filepath.Clean on a rooted path, component-wise: "." is dropped, ".."
pops the last component (and is dropped at the root). -/
def cleanAbs (comps : List String) : List String :=
  comps.foldl
    (fun acc c => if c = "." then acc else if c = ".." then acc.dropLast else acc ++ [c]) []

/-- filepath.Abs: clean the path if already absolute, otherwise join it to
the working directory (itself held as cleaned absolute components). -/
def absPath (cwd : List String) (s : String) : List String :=
  if isAbsStr s then cleanAbs (splitPath s) else cleanAbs (cwd ++ splitPath s)

/-- Characters of the Go string for an absolute cleaned path ("/" for the
root, otherwise '/' before each component). -/
def renderAbs (comps : List String) : List Char :=
  match comps with
  | [] => ['/']
  | _ => comps.foldr (fun c acc => '/' :: c.data ++ acc) []

/-- Characters of the Go string for a relative component list ("."
when empty, otherwise '/'-separated). -/
def renderRel (comps : List String) : List Char :=
  match comps with
  | [] => ['.']
  | [c] => c.data
  | c :: rest => c.data ++ '/' :: renderRel rest

/-- Drop the longest common leading run of two component lists. -/
def dropCommon : List String → List String → List String × List String
  | a :: as, b :: bs => if a = b then dropCommon as bs else (a :: as, b :: bs)
  | as, bs => (as, bs)

/-- filepath.Rel(base, targ) for cleaned absolute paths: strip the common
part, then one ".." per remaining base component followed by the remaining
target components. -/
def relPath (base targ : List String) : List String :=
  let p := dropCommon base targ
  List.replicate p.1.length ".." ++ p.2

/-- Byte-wise string comparison, as sort.Strings orders keys (identical to
code-point order for the ASCII paths considered here). -/
def charsLe : List Char → List Char → Bool
  | [], _ => true
  | _ :: _, [] => false
  | a :: as, b :: bs =>
    if a.toNat < b.toNat then true
    else if b.toNat < a.toNat then false
    else charsLe as bs

def strLe (a b : String) : Bool := charsLe a.data b.data

def insertStr (x : String) : List String → List String
  | [] => [x]
  | y :: ys => if strLe x y then x :: y :: ys else y :: insertStr x ys

/-- sort.Strings(names). -/
def sortStrings (names : List String) : List String :=
  names.foldr insertStr []

/-! ## The archiver, from archiver.go

Regular files, directories and symlinks are dispatched in sorted key order
(Archiver.Archive).  The model linearises the concurrent workers at their
dispatch point; this fixes one interleaving of the emission mutex, which
is sound for every claim about the set of emitted entries and the final
counter values (each worker's contribution is interleaving-independent).
The order in which concurrent workers reach the emission mutex is modelled
separately (archiveEmitOrder below).  Cancellation is not exercised by the
claims and the ctx.Err() checks are omitted. -/

/-- File type bits of an os.FileInfo mode, as the archiver distinguishes
them: irregularModes = ModeSocket|ModeDevice|ModeCharDevice|ModeNamedPipe. -/
inductive GoType where
  | regular
  | directory
  | symlink
  | irregular
deriving DecidableEq, Repr

/-- Calendar components of a modification time, as zip headers carry them. -/
structure DateTime where
  year : Nat
  month : Nat
  day : Nat
  hour : Nat
  minute : Nat
  second : Nat
deriving DecidableEq, Repr

/-- The caller-provided os.FileInfo for one mapping entry: size is the stat
size (used for UncompressedSize64), content the bytes read from the opened
file, target the symlink target returned by os.Readlink. -/
structure GoFileInfo where
  ftype : GoType
  perm : Nat
  mtime : DateTime
  size : Nat
  content : List Nat
  target : String
deriving DecidableEq, Repr

instance : Inhabited GoFileInfo :=
  ⟨{ ftype := .irregular, perm := 0, mtime := ⟨0, 0, 0, 0, 0, 0⟩, size := 0,
     content := [], target := "" }⟩

def zipStore : Nat := 0
def zipDeflate : Nat := 8

/-- Header fields the raw-emission path fills in itself (createHeaderRaw).

Modelled from the spec: the repository's raw-header convenience wrapper
(the function archiver.go calls as createHeaderRaw, which re-implements
the UTF-8 flag, version bytes, MS-DOS time conversion, extended-timestamp
extra and data-descriptor flag per APPNOTE) is not among the files under
src/; only its callers are.  The fields below follow the spec's §4.3
"Raw-header emission" and §6 "File format" word for word.  Names are Lean
strings, hence always valid UTF-8, so the validity half of the UTF-8
condition holds by construction; fastzip leaves the comment empty. -/
structure RawHdr where
  flags : Nat
  creatorVersion : Nat
  readerVersion : Nat
  modDate : Nat
  modTime : Nat
  hasExtendedTimestamp : Bool
deriving DecidableEq, Repr

/-- Does the name require the UTF-8 flag: some code point outside
[0x20, 0x7D] or equal to 0x5C (backslash). -/
def needsUtf8 (name : String) : Bool :=
  name.data.any (fun c => c.toNat < 0x20 || 0x7d < c.toNat || c.toNat = 0x5c)

/-- Modelled from the spec: the raw-header fields the archiver sets itself,
per §4.3/§6 — UTF-8 general-purpose bit 0x0800 when required and valid,
data-descriptor flag 0x08, creator/reader versions 20, MS-DOS date/time
from the modification time, extended-timestamp extra appended. -/
def zipCreateHeaderRawModel (name : String) (mt : DateTime) : RawHdr :=
  { flags := (if needsUtf8 name then 0x800 else 0) + 0x8
    creatorVersion := 20
    readerVersion := 20
    modDate := mt.day + mt.month * 32 + (mt.year - 1980) * 512
    modTime := mt.second / 2 + mt.minute * 32 + mt.hour * 2048
    hasExtendedTimestamp := true }

/-- One record written into the ZIP stream. -/
structure AEntry where
  name : String
  method : Nat
  uncompressedSize : Nat
  compressedSize : Nat
  content : List Nat
  raw : Option RawHdr
deriving DecidableEq, Repr

/-- Configuration of an Archiver (NewArchiver + options); chroot is held as
cleaned absolute components (filepath.Abs in NewArchiver). -/
structure ArchiverConfig where
  chroot : List String
  cwd : List String
  method : Nat
  concurrency : Nat
deriving Repr

/-- The compressor registry a.compressors: method id to compression
function (the zip.Compressor abstracted to its effect on the byte stream). -/
def Compressors := List (Nat × (List Nat → List Nat))

def Compressors.find (cs : Compressors) (m : Nat) : Option (List Nat → List Nat) :=
  match cs with
  | [] => none
  | (k, f) :: rest => if k = m then some f else Compressors.find rest m

/-- archiver.go lines 162-165: a regular file keeps the zero-value method
(Store) unless its uncompressed size is positive, in which case the
configured method is assigned before dispatch. -/
def dispatchMethod (cfg : ArchiverConfig) (fi : GoFileInfo) : Nat :=
  if 0 < fi.size then cfg.method else zipStore

/-- The entry name built by fileInfoHeader: the path relative to the
chroot, slash-separated, with a trailing slash for directories. -/
def hdrNameOf (cfg : ArchiverConfig) (name : String) (fi : GoFileInfo) : String :=
  let rel := relPath cfg.chroot (absPath cfg.cwd name)
  if fi.ftype = .directory then String.mk (renderRel rel ++ ['/'])
  else String.mk (renderRel rel)

/-- What zip.CreateHeader stores for a payload compressed with the method's
registered compressor: Store passes bytes through, any other method uses the
writer's registered compressor (Deflate is registered by NewArchiver). -/
def zwStored (cs : Compressors) (method : Nat) (payload : List Nat) : List Nat :=
  if method = zipStore then payload
  else
    match cs.find method with
    | some f => f payload
    | none => payload

/-- Archiver.compressFileSimple: the conventional zip.CreateHeader path; the
payload bytes stream through the countWriter, so the written counter grows
by the uncompressed payload length.  The payload is whatever remains of the
file from its current read position. -/
def compressFileSimpleModel (cs : Compressors) (cfg : ArchiverConfig) (name : String)
    (fi : GoFileInfo) (method : Nat) (pos : Nat) : AEntry × Nat :=
  let payload := fi.content.drop pos
  let stored := zwStored cs method payload
  ({ name := hdrNameOf cfg name fi
     method := method
     uncompressedSize := fi.size
     compressedSize := stored.length
     content := stored
     raw := none }, payload.length)

/-- Archiver.compressFile: with a registered compressor and a pool buffer,
pre-compress the whole file into the buffer; if the compressed size exceeds
the uncompressed size, seek the file back to the start and fall back to
compressFileSimple with method Store; otherwise write a raw header
(createHeaderRaw) and copy the staged compressed bytes through the
countWriter.  Without a registered compressor or without a buffer, fall
back to compressFileSimple with the dispatched method. -/
def compressFileModel (cs : Compressors) (cfg : ArchiverConfig) (name : String)
    (fi : GoFileInfo) (method : Nat) (pool : Bool) : AEntry × Nat :=
  match cs.find method, pool with
  | some comp, true =>
    let compressed := comp fi.content
    if fi.size < compressed.length then
      -- f.Seek(0, io.SeekStart); hdr.Method = zip.Store; compressFileSimple
      compressFileSimpleModel cs cfg name fi zipStore 0
    else
      ({ name := hdrNameOf cfg name fi
         method := method
         uncompressedSize := fi.size
         compressedSize := compressed.length
         content := compressed
         raw := some (zipCreateHeaderRawModel (hdrNameOf cfg name fi) fi.mtime) },
       compressed.length)
  | _, _ => compressFileSimpleModel cs cfg name fi method 0

/-- The single entry (and countWriter contribution) produced for one
accepted name, by entry type: symlinks and directories are written inline
under the mutex (createSymlink / createDirectory; neither routes bytes
through the countWriter), regular files go through createFile. -/
def emitFor (cs : Compressors) (cfg : ArchiverConfig) (pool : Bool) (name : String)
    (fi : GoFileInfo) : Option (AEntry × Nat) :=
  match fi.ftype with
  | .irregular => none
  | .symlink =>
    some ({ name := hdrNameOf cfg name fi
            method := zipStore
            uncompressedSize := fi.size
            compressedSize := fi.target.length
            content := fi.target.data.map Char.toNat
            raw := none }, 0)
  | .directory =>
    some ({ name := hdrNameOf cfg name fi
            method := zipStore
            uncompressedSize := fi.size
            compressedSize := 0
            content := []
            raw := none }, 0)
  | .regular =>
    some (compressFileModel cs cfg name fi (dispatchMethod cfg fi) pool)

/-- Result of Archive: emitted entries in emission order, the two counters,
and the error that stopped the dispatch loop, if any. -/
structure AState where
  entries : List AEntry
  written : Nat
  count : Nat
  err : Option Err
deriving Repr

/-- strings.HasPrefix(path, a.chroot): the archiver's chroot check compares
the two strings directly (archiver.go lines 139-141). -/
def archiverAccepts (cfg : ArchiverConfig) (name : String) : Bool :=
  strStarts (renderAbs cfg.chroot) (renderAbs (absPath cfg.cwd name))

def lookupFi (files : List (String × GoFileInfo)) (name : String) : GoFileInfo :=
  match files with
  | [] => default
  | (k, fi) :: rest => if k = name then fi else lookupFi rest name

/-- The dispatch loop of Archiver.Archive over the sorted names. -/
def archiveLoop (cs : Compressors) (cfg : ArchiverConfig) (pool : Bool)
    (files : List (String × GoFileInfo)) (st : AState) : List String → AState
  | [] => st
  | name :: rest =>
    let fi := lookupFi files name
    if fi.ftype = .irregular then archiveLoop cs cfg pool files st rest
    else if archiverAccepts cfg name then
      match emitFor cs cfg pool name fi with
      | some (ent, contrib) =>
        archiveLoop cs cfg pool files
          { st with entries := st.entries ++ [ent], written := st.written + contrib,
                    count := st.count + 1 } rest
      | none => archiveLoop cs cfg pool files st rest
    else
      { st with err := some .outsideChroot }

/-- Archiver.Archive: sort the keys, decide whether the FilePool is active
(effective concurrency = min(configured, number of files) greater than 1),
then dispatch every entry in sorted order. -/
def archiveRun (cs : Compressors) (cfg : ArchiverConfig)
    (files : List (String × GoFileInfo)) : AState :=
  let names := sortStrings (files.map Prod.fst)
  let pool := decide (1 < min cfg.concurrency files.length)
  archiveLoop cs cfg pool files { entries := [], written := 0, count := 0, err := none } names

/-! ### Fold facts for the dispatch loop -/

theorem insertStr_perm (x : String) (l : List String) : (insertStr x l).Perm (x :: l) := by
  induction l with
  | nil => simp [insertStr]
  | cons y ys ih =>
    simp only [insertStr]
    split
    · exact List.Perm.refl _
    · exact ((ih.cons y).trans (List.Perm.swap x y ys)).symm.symm

theorem sortStrings_perm (l : List String) : (sortStrings l).Perm l := by
  induction l with
  | nil => simp [sortStrings]
  | cons x xs ih =>
    simp only [sortStrings] at ih ⊢
    exact (insertStr_perm x _).trans (ih.cons x)

theorem mem_sortStrings {x : String} {l : List String} :
    x ∈ sortStrings l ↔ x ∈ l :=
  (sortStrings_perm l).mem_iff

theorem archiveLoop_entries_monotone (cs : Compressors) (cfg : ArchiverConfig) (pool : Bool)
    (files : List (String × GoFileInfo)) : ∀ (names : List String) (st : AState),
    ∀ ent ∈ st.entries, ent ∈ (archiveLoop cs cfg pool files st names).entries := by
  intro names
  induction names with
  | nil => intro st ent h; simpa [archiveLoop] using h
  | cons name rest ih =>
    intro st ent h
    simp only [archiveLoop]
    by_cases hirr : (lookupFi files name).ftype = .irregular
    · rw [if_pos hirr]; exact ih st ent h
    · rw [if_neg hirr]
      by_cases hacc : archiverAccepts cfg name = true
      · rw [if_pos hacc]
        cases hE : emitFor cs cfg pool name (lookupFi files name) with
        | none => exact ih st ent h
        | some p => exact ih _ ent (by simp [h])
      · rw [if_neg hacc]; simpa using h

/-- Every entry the dispatch loop adds comes from emitFor at some processed
name that passed the chroot check. -/
theorem archiveLoop_entries_source (cs : Compressors) (cfg : ArchiverConfig) (pool : Bool)
    (files : List (String × GoFileInfo)) : ∀ (names : List String) (st : AState),
    ∀ ent ∈ (archiveLoop cs cfg pool files st names).entries,
      ent ∈ st.entries ∨ ∃ name ∈ names, archiverAccepts cfg name = true ∧
        ∃ c, emitFor cs cfg pool name (lookupFi files name) = some (ent, c) := by
  intro names
  induction names with
  | nil => intro st ent h; left; simpa [archiveLoop] using h
  | cons name rest ih =>
    intro st ent h
    simp only [archiveLoop] at h
    by_cases hirr : (lookupFi files name).ftype = .irregular
    · rw [if_pos hirr] at h
      rcases ih st ent h with h' | ⟨n, hn, hacc, hc⟩
      · exact Or.inl h'
      · exact Or.inr ⟨n, List.mem_cons_of_mem _ hn, hacc, hc⟩
    · rw [if_neg hirr] at h
      by_cases hacc : archiverAccepts cfg name = true
      · rw [if_pos hacc] at h
        cases hE : emitFor cs cfg pool name (lookupFi files name) with
        | none =>
          rw [hE] at h
          rcases ih st ent h with h' | ⟨n, hn, hacc', hc⟩
          · exact Or.inl h'
          · exact Or.inr ⟨n, List.mem_cons_of_mem _ hn, hacc', hc⟩
        | some p =>
          rw [hE] at h
          rcases ih _ ent h with h' | ⟨n, hn, hacc', hc⟩
          · simp only [List.mem_append, List.mem_singleton] at h'
            rcases h' with h' | h'
            · exact Or.inl h'
            · subst h'
              exact Or.inr ⟨name, List.mem_cons_self _ _, hacc, p.2, by rw [hE]⟩
          · exact Or.inr ⟨n, List.mem_cons_of_mem _ hn, hacc', hc⟩
      · rw [if_neg hacc] at h
        exact Or.inl h

/-- When the dispatch loop finishes without error, every processed
non-irregular name passed the chroot check. -/
theorem archiveLoop_ok_accepts (cs : Compressors) (cfg : ArchiverConfig) (pool : Bool)
    (files : List (String × GoFileInfo)) : ∀ (names : List String) (st : AState),
    (archiveLoop cs cfg pool files st names).err = none →
    ∀ name ∈ names, (lookupFi files name).ftype ≠ .irregular →
      archiverAccepts cfg name = true := by
  intro names
  induction names with
  | nil => intro st _ name h; simp at h
  | cons n rest ih =>
    intro st hok name hmem hirr
    simp only [archiveLoop] at hok
    by_cases hskip : (lookupFi files n).ftype = .irregular
    · rw [if_pos hskip] at hok
      rcases List.mem_cons.mp hmem with h | h
      · subst h; exact absurd hskip hirr
      · exact ih st hok name h hirr
    · rw [if_neg hskip] at hok
      by_cases hacc : archiverAccepts cfg n = true
      · rcases List.mem_cons.mp hmem with h | h
        · subst h; exact hacc
        · rw [if_pos hacc] at hok
          cases hE : emitFor cs cfg pool n (lookupFi files n) with
          | none => rw [hE] at hok; exact ih st hok name h hirr
          | some p => rw [hE] at hok; exact ih _ hok name h hirr
      · rw [if_neg hacc] at hok
        simp at hok

/-- When the dispatch loop finishes without error, every processed accepted
name has its emitFor entry among the emitted entries. -/
theorem archiveLoop_emits (cs : Compressors) (cfg : ArchiverConfig) (pool : Bool)
    (files : List (String × GoFileInfo)) : ∀ (names : List String) (st : AState),
    (archiveLoop cs cfg pool files st names).err = none →
    ∀ name ∈ names, archiverAccepts cfg name = true →
    ∀ ent c, emitFor cs cfg pool name (lookupFi files name) = some (ent, c) →
      ent ∈ (archiveLoop cs cfg pool files st names).entries := by
  intro names
  induction names with
  | nil => intro st _ name h; simp at h
  | cons n rest ih =>
    intro st hok name hmem hacc ent c hemit
    rcases List.mem_cons.mp hmem with h | h
    · subst h
      simp only [archiveLoop] at hok ⊢
      by_cases hskip : (lookupFi files name).ftype = .irregular
      · simp [emitFor, hskip] at hemit
      · rw [if_neg hskip, if_pos hacc] at hok ⊢
        rw [hemit] at hok ⊢
        apply archiveLoop_entries_monotone
        simp
    · simp only [archiveLoop] at hok ⊢
      by_cases hskip : (lookupFi files n).ftype = .irregular
      · rw [if_pos hskip] at hok ⊢
        exact ih st hok name h hacc ent c hemit
      · rw [if_neg hskip] at hok ⊢
        by_cases hacc' : archiverAccepts cfg n = true
        · rw [if_pos hacc'] at hok ⊢
          cases hE : emitFor cs cfg pool n (lookupFi files n) with
          | none => rw [hE] at hok; exact ih st hok name h hacc ent c hemit
          | some p => rw [hE] at hok; exact ih _ hok name h hacc ent c hemit
        · rw [if_neg hacc'] at hok
          simp at hok

theorem compressFileModel_name (cs : Compressors) (cfg : ArchiverConfig)
    (name : String) (fi : GoFileInfo) (method : Nat) (pool : Bool) :
    (compressFileModel cs cfg name fi method pool).1.name = hdrNameOf cfg name fi := by
  unfold compressFileModel
  cases hfind : cs.find method with
  | none => cases pool <;> (unfold compressFileSimpleModel; simp)
  | some comp =>
    cases pool with
    | false => unfold compressFileSimpleModel; simp
    | true => dsimp only; split_ifs <;> simp [compressFileSimpleModel]

theorem emitFor_name (cs : Compressors) (cfg : ArchiverConfig) (pool : Bool)
    (name : String) (fi : GoFileInfo) (ent : AEntry) (c : Nat)
    (h : emitFor cs cfg pool name fi = some (ent, c)) :
    ent.name = hdrNameOf cfg name fi := by
  unfold emitFor at h
  cases hty : fi.ftype <;> rw [hty] at h
  · have h2 : compressFileModel cs cfg name fi (dispatchMethod cfg fi) pool = (ent, c) := by
      simpa using h
    have h3 : ent = (compressFileModel cs cfg name fi (dispatchMethod cfg fi) pool).1 := by
      rw [h2]
    rw [h3, compressFileModel_name]
  · simp only [Option.some.injEq, Prod.mk.injEq] at h
    rw [← h.1]
  · simp only [Option.some.injEq, Prod.mk.injEq] at h
    rw [← h.1]
  · simp at h

/-! ## Concrete fixtures

A fixed modification time, a directory, a 5-byte "hello" file and an empty
regular file; a model deflate backend for tiny inputs.  Deflate is an
external collaborator specified only at its io interface; any deflate
stream carries a few bytes of block overhead, so on a 5-byte input every
backend emits more than 5 bytes.  The model backend appends the minimal
six bytes of stream overhead to the literals. -/

def dt0 : DateTime := ⟨2019, 3, 15, 14, 30, 0⟩

def helloBytes : List Nat := [104, 101, 108, 108, 111]

def fiDirA : GoFileInfo :=
  { ftype := .directory, perm := 511, mtime := dt0, size := 4096, content := [], target := "" }

def fiHello : GoFileInfo :=
  { ftype := .regular, perm := 420, mtime := dt0, size := 5, content := helloBytes, target := "" }

def fiReg0 : GoFileInfo :=
  { ftype := .regular, perm := 420, mtime := dt0, size := 0, content := [], target := "" }

def tinyInflatingDeflate : List Nat → List Nat :=
  fun l => l ++ [0, 0, 0, 0, 0, 0]

/-! ## Claim C2: the archiver chroot check

archiver.go lines 139-141 guard each sorted name with
strings.HasPrefix(path, a.chroot) on the raw strings.  A sibling of the
chroot whose name merely extends the chroot string (such as /cc beside
chroot /c) passes this check although it neither equals the chroot nor has
chroot+separator as a prefix; the claim predicts an OutsideChroot error for
it, but Archive accepts it and emits an entry (named through filepath.Rel,
so with a leading "../"). -/

def cfgSibling : ArchiverConfig :=
  { chroot := ["c"], cwd := [], method := zipDeflate, concurrency := 1 }

/-- Claim C2 counterexample: with chroot /c and the mapping containing the
single key /cc, the absolute path /cc neither equals /c nor has the string
"/c/" as a prefix, yet Archive returns no error and writes an entry for it
(named "../cc"). -/
theorem claim_C2_counterexample :
    (archiveRun [] cfgSibling [("/cc", fiReg0)]).err = none ∧
    ¬ (renderAbs (absPath [] "/cc") = renderAbs cfgSibling.chroot ∨
       strStarts (renderAbs cfgSibling.chroot ++ ['/']) (renderAbs (absPath [] "/cc")) = true) ∧
    (archiveRun [] cfgSibling [("/cc", fiReg0)]).entries.map AEntry.name = ["../cc"] := by
  decide

/-- Claim C2 (amended): for every mapping, Archive rejects a non-irregular
key exactly when the chroot string is not a plain string prefix of the
key's absolute path (the code's strings.HasPrefix check, weaker than the
claimed equals-or-separator test): on a completed run every non-irregular
key passed the plain-prefix check, and every emitted entry stems from a key
that passed it, so no entry is written for a rejected path. -/
theorem claim_C2_amended (cs : Compressors) (cfg : ArchiverConfig)
    (files : List (String × GoFileInfo)) :
    ((archiveRun cs cfg files).err = none →
      ∀ name ∈ files.map Prod.fst, (lookupFi files name).ftype ≠ .irregular →
        strStarts (renderAbs cfg.chroot) (renderAbs (absPath cfg.cwd name)) = true) ∧
    (∀ ent ∈ (archiveRun cs cfg files).entries, ∃ name ∈ files.map Prod.fst,
        strStarts (renderAbs cfg.chroot) (renderAbs (absPath cfg.cwd name)) = true ∧
        ent.name = hdrNameOf cfg name (lookupFi files name)) := by
  constructor
  · intro hok name hmem hirr
    exact archiveLoop_ok_accepts cs cfg _ files _ _ hok name (mem_sortStrings.mpr hmem) hirr
  · intro ent hent
    rcases archiveLoop_entries_source cs cfg _ files _ _ ent hent with h | ⟨name, hn, hacc, c, hc⟩
    · simp at h
    · exact ⟨name, mem_sortStrings.mp hn, hacc, emitFor_name _ _ _ _ _ _ _ hc⟩

/-- Witness for the amended C2 theorem at a concrete accepted mapping. -/
theorem claim_C2_amended_witness :
    strStarts (renderAbs cfgSibling.chroot) (renderAbs (absPath [] "/c/x")) = true :=
  (claim_C2_amended [] cfgSibling [("/c/x", fiReg0)]).1 (by decide) "/c/x" (by decide)
    (by decide)

/-! ## Claim C9: Written() after the two-entry scenario

Input: directory /src/a and regular file /src/a/b.txt with contents
"hello", chroot /src, concurrency 4.  Effective concurrency is
min(4, 2) = 2, so the FilePool is active and the file takes
Archiver.compressFile.  Deflate inflates the 5-byte input, so the file
falls back to compressFileSimple with method Store and its 5 payload bytes
stream through the countWriter; the directory contributes no bytes.
Written() therefore returns (5, 2), not the claimed (0, 2). -/

def c9cfg : ArchiverConfig :=
  { chroot := ["src"], cwd := [], method := zipDeflate, concurrency := 4 }

def c9files : List (String × GoFileInfo) :=
  [("/src/a", fiDirA), ("/src/a/b.txt", fiHello)]

/-- Claim C9 counterexample: on the claimed input the archiver reports
5 written bytes and 2 entries, refuting bytes = 0. -/
theorem claim_C9_counterexample :
    (archiveRun [(zipDeflate, tinyInflatingDeflate)] c9cfg c9files).written = 5 ∧
    (archiveRun [(zipDeflate, tinyInflatingDeflate)] c9cfg c9files).count = 2 ∧
    ¬ ((archiveRun [(zipDeflate, tinyInflatingDeflate)] c9cfg c9files).written = 0 ∧
       (archiveRun [(zipDeflate, tinyInflatingDeflate)] c9cfg c9files).count = 2) := by
  decide

theorem archiveLoop_cons_emit (cs : Compressors) (cfg : ArchiverConfig) (pool : Bool)
    (files : List (String × GoFileInfo)) (name : String) (rest : List String)
    (ent : AEntry) (c : Nat) (st : AState)
    (hirr : (lookupFi files name).ftype ≠ .irregular)
    (hacc : archiverAccepts cfg name = true)
    (hE : emitFor cs cfg pool name (lookupFi files name) = some (ent, c)) :
    archiveLoop cs cfg pool files st (name :: rest) =
      archiveLoop cs cfg pool files
        { st with entries := st.entries ++ [ent], written := st.written + c,
                  count := st.count + 1 } rest := by
  simp only [archiveLoop]
  rw [if_neg hirr, if_pos hacc, hE]

/-- Claim C9 (amended): for every registered deflate backend that inflates
the 5-byte input (as every deflate stream does), Written() after archiving
the directory a and the file a/b.txt with contents "hello" at concurrency 4
returns bytes = 5 (the file's payload routed through the byte counter by
the store fallback; the directory contributes none) and entries = 2. -/
theorem claim_C9_amended (c : List Nat → List Nat)
    (h : 5 < (c helloBytes).length) :
    (archiveRun [(zipDeflate, c)] c9cfg c9files).written = 5 ∧
    (archiveRun [(zipDeflate, c)] c9cfg c9files).count = 2 ∧
    (archiveRun [(zipDeflate, c)] c9cfg c9files).err = none := by
  have hc : fiHello.size < (c fiHello.content).length := by
    simpa [fiHello] using h
  have e2 : emitFor [(zipDeflate, c)] c9cfg true "/src/a/b.txt" fiHello
      = some (compressFileSimpleModel [(zipDeflate, c)] c9cfg "/src/a/b.txt" fiHello
          zipStore 0) := by
    show some (compressFileModel [(zipDeflate, c)] c9cfg "/src/a/b.txt" fiHello
        (dispatchMethod c9cfg fiHello) true) = _
    rw [show compressFileModel [(zipDeflate, c)] c9cfg "/src/a/b.txt" fiHello
        (dispatchMethod c9cfg fiHello) true
        = if fiHello.size < (c fiHello.content).length
          then compressFileSimpleModel [(zipDeflate, c)] c9cfg "/src/a/b.txt" fiHello
            zipStore 0
          else ({ name := hdrNameOf c9cfg "/src/a/b.txt" fiHello
                  method := dispatchMethod c9cfg fiHello
                  uncompressedSize := fiHello.size
                  compressedSize := (c fiHello.content).length
                  content := c fiHello.content
                  raw := some (zipCreateHeaderRawModel
                    (hdrNameOf c9cfg "/src/a/b.txt" fiHello) fiHello.mtime) },
                (c fiHello.content).length) from rfl]
    rw [if_pos hc]
  have hrun : archiveRun [(zipDeflate, c)] c9cfg c9files =
      archiveLoop [(zipDeflate, c)] c9cfg true c9files
        { entries := [], written := 0, count := 0, err := none }
        ["/src/a", "/src/a/b.txt"] := by
    simp only [archiveRun]
    rw [show sortStrings (c9files.map Prod.fst) = ["/src/a", "/src/a/b.txt"] from by decide,
      show decide (1 < c9cfg.concurrency ⊓ c9files.length) = true from by decide]
  rw [hrun,
    archiveLoop_cons_emit [(zipDeflate, c)] c9cfg true c9files "/src/a" _
      ({ name := "a/", method := zipStore, uncompressedSize := 4096, compressedSize := 0,
         content := [], raw := none }) 0 _ (by decide) (by decide) rfl,
    archiveLoop_cons_emit [(zipDeflate, c)] c9cfg true c9files "/src/a/b.txt" _
      (compressFileSimpleModel [(zipDeflate, c)] c9cfg "/src/a/b.txt" fiHello zipStore 0).1
      (compressFileSimpleModel [(zipDeflate, c)] c9cfg "/src/a/b.txt" fiHello zipStore 0).2
      _ (by decide) (by decide) e2]
  exact ⟨rfl, rfl, rfl⟩

/-- Witness for the amended C9 theorem at the model deflate backend. -/
theorem claim_C9_amended_witness :
    5 < (tinyInflatingDeflate helloBytes).length ∧
    (archiveRun [(zipDeflate, tinyInflatingDeflate)] c9cfg c9files).written = 5 ∧
    (archiveRun [(zipDeflate, tinyInflatingDeflate)] c9cfg c9files).count = 2 ∧
    (archiveRun [(zipDeflate, tinyInflatingDeflate)] c9cfg c9files).err = none :=
  ⟨by decide, claim_C9_amended tinyInflatingDeflate (by decide)⟩

/-! ## Claim C4: the store fallback when compression inflates -/

theorem emitFor_inflate (cs : Compressors) (cfg : ArchiverConfig) (pool : Bool)
    (name : String) (fi : GoFileInfo) (comp : List Nat → List Nat)
    (hreg : fi.ftype = .regular) (hpool : pool = true)
    (hcomp : cs.find (dispatchMethod cfg fi) = some comp)
    (hinfl : fi.size < (comp fi.content).length) :
    emitFor cs cfg pool name fi =
      some (compressFileSimpleModel cs cfg name fi zipStore 0) := by
  subst hpool
  unfold emitFor
  rw [hreg]
  dsimp only
  unfold compressFileModel
  rw [hcomp]
  dsimp only
  rw [if_pos hinfl]

/-- Claim C4: for every regular file in the mapping whose compressed size
under the configured method exceeds its (stat) uncompressed size, the
emitted entry has method Store, a compressed size equal to the uncompressed
size, and its content is the original file bytes re-read from the start of
the source file (the model file position is rewound by f.Seek before the
fallback re-reads it). -/
theorem claim_C4_store_fallback (cs : Compressors) (cfg : ArchiverConfig)
    (files : List (String × GoFileInfo)) (name : String) (comp : List Nat → List Nat)
    (hmem : name ∈ files.map Prod.fst)
    (hreg : (lookupFi files name).ftype = .regular)
    (hacc : archiverAccepts cfg name = true)
    (hok : (archiveRun cs cfg files).err = none)
    (hpool : 1 < min cfg.concurrency files.length)
    (hcomp : cs.find (dispatchMethod cfg (lookupFi files name)) = some comp)
    (hinfl : (lookupFi files name).size < (comp (lookupFi files name).content).length)
    (hsize : (lookupFi files name).size = (lookupFi files name).content.length) :
    ∃ ent ∈ (archiveRun cs cfg files).entries,
      ent.name = hdrNameOf cfg name (lookupFi files name) ∧
      ent.method = zipStore ∧
      ent.compressedSize = ent.uncompressedSize ∧
      ent.uncompressedSize = (lookupFi files name).size ∧
      ent.content = (lookupFi files name).content := by
  have hpoolb : decide (1 < min cfg.concurrency files.length) = true := by
    simpa using hpool
  have hemit := emitFor_inflate cs cfg _ name (lookupFi files name) comp hreg hpoolb
    hcomp hinfl
  refine ⟨(compressFileSimpleModel cs cfg name (lookupFi files name) zipStore 0).1,
    ?_, ?_, ?_, ?_, ?_, ?_⟩
  · exact archiveLoop_emits cs cfg _ files _ _ hok name (mem_sortStrings.mpr hmem) hacc
      _ _ (by rw [hemit])
  · rfl
  · rfl
  · simp [compressFileSimpleModel, zwStored, zipStore, hsize]
  · rfl
  · simp [compressFileSimpleModel, zwStored, zipStore]

/-- Witness for claim C4 at the hello file compressed by the model deflate
backend, which inflates it. -/
theorem claim_C4_store_fallback_witness :
    ∃ ent ∈ (archiveRun [(zipDeflate, tinyInflatingDeflate)] c9cfg c9files).entries,
      ent.name = hdrNameOf c9cfg "/src/a/b.txt" (lookupFi c9files "/src/a/b.txt") ∧
      ent.method = zipStore ∧
      ent.compressedSize = ent.uncompressedSize ∧
      ent.uncompressedSize = (lookupFi c9files "/src/a/b.txt").size ∧
      ent.content = (lookupFi c9files "/src/a/b.txt").content :=
  claim_C4_store_fallback [(zipDeflate, tinyInflatingDeflate)] c9cfg c9files
    "/src/a/b.txt" tinyInflatingDeflate (by decide) (by decide) (by decide) (by decide)
    (by decide) rfl (by decide) (by decide)

/-- Claim C4 counterexample: archiving a single inflating regular file.
The effective concurrency is min(4, 1) = 1, so no FilePool is created;
compressFile has no staging buffer and never compares sizes, falling
straight back to compressFileSimple with the configured method: the run
succeeds and the only emitted entry keeps method Deflate (8) with
compressed size 11 exceeding the uncompressed size 5, refuting the
unconditional store-on-inflate claim. -/
theorem claim_C4_counterexample :
    (archiveRun [(zipDeflate, tinyInflatingDeflate)] c9cfg
      [("/src/b.txt", fiHello)]).err = none ∧
    ((archiveRun [(zipDeflate, tinyInflatingDeflate)] c9cfg
        [("/src/b.txt", fiHello)]).entries.map
      (fun ent => (ent.method, ent.compressedSize, ent.uncompressedSize)))
      = [(zipDeflate, 11, 5)] := by
  decide

/-! ## Claim C10: zero-size files keep method Store -/

theorem emitFor_zero_size (cs : Compressors) (cfg : ArchiverConfig) (pool : Bool)
    (name : String) (fi : GoFileInfo)
    (hreg : fi.ftype = .regular) (hzero : fi.size = 0)
    (hstore : cs.find zipStore = none) :
    emitFor cs cfg pool name fi =
      some (compressFileSimpleModel cs cfg name fi zipStore 0) := by
  have hd : dispatchMethod cfg fi = zipStore := by
    simp [dispatchMethod, hzero]
  unfold emitFor
  rw [hreg]
  dsimp only
  unfold compressFileModel
  rw [hd, hstore]

/-- Claim C10: for every regular file of size zero in the mapping, the
emitted entry keeps method Store (id 0) even when the archiver was
configured with another method (Store is absent from a.compressors, so
compressFile reverts to the simple path with the zero-value method), and
only files with positive uncompressed size are assigned the configured
method at dispatch (archiver.go lines 162-165). -/
theorem claim_C10_zero_size_store (cs : Compressors) (cfg : ArchiverConfig)
    (files : List (String × GoFileInfo)) (name : String)
    (hmem : name ∈ files.map Prod.fst)
    (hreg : (lookupFi files name).ftype = .regular)
    (hacc : archiverAccepts cfg name = true)
    (hok : (archiveRun cs cfg files).err = none)
    (hzero : (lookupFi files name).size = 0)
    (hstore : cs.find zipStore = none) :
    (∃ ent ∈ (archiveRun cs cfg files).entries,
      ent.name = hdrNameOf cfg name (lookupFi files name) ∧ ent.method = zipStore) ∧
    (∀ fi : GoFileInfo, 0 < fi.size → dispatchMethod cfg fi = cfg.method) := by
  constructor
  · have hemit := emitFor_zero_size cs cfg
      (decide (1 < min cfg.concurrency files.length)) name (lookupFi files name)
      hreg hzero hstore
    refine ⟨(compressFileSimpleModel cs cfg name (lookupFi files name) zipStore 0).1,
      ?_, rfl, rfl⟩
    exact archiveLoop_emits cs cfg _ files _ _ hok name (mem_sortStrings.mpr hmem) hacc
      _ _ (by rw [hemit])
  · intro fi h
    simp [dispatchMethod, h]

/-- Witness for claim C10: an empty file archived with method Deflate. -/
theorem claim_C10_zero_size_store_witness :
    (∃ ent ∈ (archiveRun [(zipDeflate, tinyInflatingDeflate)] c9cfg
        [("/src/a", fiDirA), ("/src/e.txt", fiReg0)]).entries,
      ent.name = hdrNameOf c9cfg "/src/e.txt"
        (lookupFi [("/src/a", fiDirA), ("/src/e.txt", fiReg0)] "/src/e.txt") ∧
      ent.method = zipStore) ∧
    (∀ fi : GoFileInfo, 0 < fi.size → dispatchMethod c9cfg fi = c9cfg.method) :=
  claim_C10_zero_size_store [(zipDeflate, tinyInflatingDeflate)] c9cfg
    [("/src/a", fiDirA), ("/src/e.txt", fiReg0)] "/src/e.txt"
    (by decide) (by decide) (by decide) (by decide) (by decide) rfl


/-! ## Claim C8: the raw-header fields -/

theorem compressFileSimpleModel_raw_none (cs : Compressors) (cfg : ArchiverConfig)
    (name : String) (fi : GoFileInfo) (method pos : Nat) :
    (compressFileSimpleModel cs cfg name fi method pos).1.raw = none := rfl

theorem emitFor_raw (cs : Compressors) (cfg : ArchiverConfig) (pool : Bool)
    (name : String) (fi : GoFileInfo) (ent : AEntry) (c : Nat) (h : RawHdr)
    (hemit : emitFor cs cfg pool name fi = some (ent, c))
    (hraw : ent.raw = some h) :
    fi.ftype = .regular ∧ ent.name = hdrNameOf cfg name fi ∧
      h = zipCreateHeaderRawModel (hdrNameOf cfg name fi) fi.mtime := by
  unfold emitFor at hemit
  cases hty : fi.ftype <;> rw [hty] at hemit
  · refine ⟨rfl, ?_⟩
    have hpair : compressFileModel cs cfg name fi (dispatchMethod cfg fi) pool = (ent, c) := by
      simpa using hemit
    have he : ent = (compressFileModel cs cfg name fi (dispatchMethod cfg fi) pool).1 := by
      rw [hpair]
    rw [he] at hraw ⊢
    unfold compressFileModel at hraw ⊢
    cases hf : cs.find (dispatchMethod cfg fi) with
    | none =>
      rw [hf] at hraw
      cases pool <;> rw [compressFileSimpleModel_raw_none] at hraw <;> exact absurd hraw (by simp)
    | some comp =>
      rw [hf] at hraw
      cases pool with
      | false =>
        rw [compressFileSimpleModel_raw_none] at hraw
        exact absurd hraw (by simp)
      | true =>
        dsimp only at hraw ⊢
        by_cases hlt : fi.size < (comp fi.content).length
        · rw [if_pos hlt, compressFileSimpleModel_raw_none] at hraw
          exact absurd hraw (by simp)
        · rw [if_neg hlt] at hraw ⊢
          dsimp only at hraw ⊢
          simp only [Option.some.injEq] at hraw
          exact ⟨rfl, hraw.symm⟩
  · have he : ent.raw = none := by
      simp only [Option.some.injEq, Prod.mk.injEq] at hemit
      rw [← hemit.1]
    rw [he] at hraw
    exact absurd hraw (by simp)
  · have he : ent.raw = none := by
      simp only [Option.some.injEq, Prod.mk.injEq] at hemit
      rw [← hemit.1]
    rw [he] at hraw
    exact absurd hraw (by simp)
  · simp at hemit

/-- Claim C8: every entry the archiver emits through the raw
(createHeaderRaw) path carries creator and reader versions 20, the
data-descriptor flag 0x08, the UTF-8 general-purpose bit 0x0800 exactly
when the entry name requires it (Lean strings being valid UTF-8), the
MS-DOS date and time derived from the source modification time by the
APPNOTE formulas, and the extended-timestamp extra field. -/
theorem claim_C8_raw_header (cs : Compressors) (cfg : ArchiverConfig)
    (files : List (String × GoFileInfo)) :
    ∀ ent ∈ (archiveRun cs cfg files).entries, ∀ h, ent.raw = some h →
      ∃ name ∈ files.map Prod.fst,
        (lookupFi files name).ftype = .regular ∧
        ent.name = hdrNameOf cfg name (lookupFi files name) ∧
        h = zipCreateHeaderRawModel ent.name (lookupFi files name).mtime ∧
        h.creatorVersion = 20 ∧ h.readerVersion = 20 ∧
        h.flags / 8 % 2 = 1 ∧
        (h.flags / 2048 % 2 = 1 ↔ needsUtf8 ent.name = true) ∧
        h.modDate = (lookupFi files name).mtime.day + (lookupFi files name).mtime.month * 32
          + ((lookupFi files name).mtime.year - 1980) * 512 ∧
        h.modTime = (lookupFi files name).mtime.second / 2
          + (lookupFi files name).mtime.minute * 32
          + (lookupFi files name).mtime.hour * 2048 ∧
        h.hasExtendedTimestamp = true := by
  intro ent hent h hraw
  rcases archiveLoop_entries_source cs cfg _ files _ _ ent hent with h0 | ⟨name, hn, hacc, c, hc⟩
  · simp at h0
  · obtain ⟨hreg, hname, hh⟩ := emitFor_raw cs cfg _ name (lookupFi files name) ent c h hc hraw
    refine ⟨name, mem_sortStrings.mp hn, hreg, hname, by rw [hh, hname], ?_, ?_, ?_, ?_, ?_, ?_, ?_⟩
    · rw [hh]; rfl
    · rw [hh]; rfl
    · rw [hh]
      unfold zipCreateHeaderRawModel
      by_cases hu : needsUtf8 (hdrNameOf cfg name (lookupFi files name)) = true
      · rw [if_pos hu]; norm_num
      · rw [if_neg hu]; norm_num
    · rw [hh, hname]
      unfold zipCreateHeaderRawModel
      by_cases hu : needsUtf8 (hdrNameOf cfg name (lookupFi files name)) = true
      · rw [if_pos hu]
        simp [hu]
      · rw [if_neg hu]
        simp [hu]
    · rw [hh]; rfl
    · rw [hh]; rfl
    · rw [hh]; rfl

/-- A model compressor that shrinks its input, so the raw path is taken. -/
def shrinkStub : List Nat → List Nat := fun _ => [1, 2]

def fiBig : GoFileInfo :=
  { ftype := .regular, perm := 420, mtime := dt0, size := 6,
    content := [49, 49, 49, 49, 49, 49], target := "" }

def c8files : List (String × GoFileInfo) := [("/src/a", fiDirA), ("/src/big", fiBig)]

/-- The raw entry emitted for the compressible file of the C8 fixture. -/
def c8ent : AEntry :=
  { name := "big", method := zipDeflate, uncompressedSize := 6, compressedSize := 2,
    content := [1, 2], raw := some (zipCreateHeaderRawModel "big" dt0) }

def c8hdr : RawHdr := zipCreateHeaderRawModel "big" dt0

/-- Witness for claim C8 at the raw entry produced for a compressible file. -/
theorem claim_C8_raw_header_witness :
    ∃ name ∈ c8files.map Prod.fst,
      (lookupFi c8files name).ftype = .regular ∧
      c8ent.name = hdrNameOf c9cfg name (lookupFi c8files name) ∧
      c8hdr = zipCreateHeaderRawModel c8ent.name (lookupFi c8files name).mtime ∧
      c8hdr.creatorVersion = 20 ∧ c8hdr.readerVersion = 20 ∧
      c8hdr.flags / 8 % 2 = 1 ∧
      (c8hdr.flags / 2048 % 2 = 1 ↔ needsUtf8 c8ent.name = true) ∧
      c8hdr.modDate = (lookupFi c8files name).mtime.day
        + (lookupFi c8files name).mtime.month * 32
        + ((lookupFi c8files name).mtime.year - 1980) * 512 ∧
      c8hdr.modTime = (lookupFi c8files name).mtime.second / 2
        + (lookupFi c8files name).mtime.minute * 32
        + (lookupFi c8files name).mtime.hour * 2048 ∧
      c8hdr.hasExtendedTimestamp = true :=
  claim_C8_raw_header [(zipDeflate, shrinkStub)] c9cfg c8files c8ent (by decide)
    c8hdr (by decide)

/-! ## Claim C3: emission order under concurrency

The dispatch loop hands regular files to errgroup workers in ascending
sorted-key order, but nothing sequences the workers' entries into the ZIP:
each worker compresses independently and takes the archive mutex when its
compression finishes (archiver.go lines 171-177 and 283-292), so entries
are appended in worker-completion order.  A completion order is modelled as
the list of dispatched-worker indices in the order they reach the mutex;
with concurrency C, at most C workers are in flight, so the worker
completing t-th must be among the first t + C dispatched. -/

def validSched (C m : Nat) (sched : List Nat) : Prop :=
  sched.Perm (List.range m) ∧ ∀ t < sched.length, sched.getD t 0 < t + C

instance (C m : Nat) (s : List Nat) : Decidable (validSched C m s) := by
  unfold validSched
  infer_instance

/-- The entry names in ZIP emission order: the t-th entry written under the
mutex belongs to the sched(t)-th dispatched name (names in sorted order). -/
def archiveEmitOrder (names : List String) (sched : List Nat) : List String :=
  sched.map (fun i => names.getD i "")

/-- A feasible completion order at concurrency 1 is the dispatch order. -/
theorem validSched_one (m : Nat) : ∀ (σ : List Nat), validSched 1 m σ → σ = List.range m := by
  induction m with
  | zero =>
    intro σ h
    simpa using List.perm_nil.mp (by simpa using h.1)
  | succ m ih =>
    intro σ h
    obtain ⟨hperm, hbound⟩ := h
    have hlen : σ.length = m + 1 := by simpa using hperm.length_eq
    have hne : σ ≠ [] := by
      intro h0
      rw [h0] at hlen
      simp at hlen
    have hm : m ∈ σ := hperm.mem_iff.mpr (by simp)
    obtain ⟨⟨t, ht⟩, hget⟩ := List.get_of_mem hm
    have hgetD : σ.getD t 0 = σ.get ⟨t, ht⟩ := by
      simp [List.getD_eq_getElem?_getD, List.getElem?_eq_getElem ht]
    have htm : t = m := by
      have hb := hbound t (by omega)
      rw [hgetD, hget] at hb
      omega
    have hlast : σ.getLast hne = m := by
      rw [List.getLast_eq_getElem σ hne]
      have heq : σ.length - 1 = t := by omega
      simp_rw [heq]
      exact hget
    have hsplit : σ.dropLast ++ [m] = σ := by
      rw [← hlast]
      exact List.dropLast_append_getLast hne
    have hperm2 : σ.dropLast.Perm (List.range m) := by
      have h2 : (σ.dropLast ++ [m]).Perm (List.range m ++ [m]) := by
        rw [hsplit, ← List.range_succ]
        exact hperm
      exact (List.perm_append_right_iff _).mp h2
    have hlen2 : σ.dropLast.length = m := by
      simp [hlen]
    have hbound2 : ∀ u < σ.dropLast.length, σ.dropLast.getD u 0 < u + 1 := by
      intro u hu
      have hu' : u < σ.length := by omega
      have hud : σ.dropLast.getD u 0 = σ.getD u 0 := by
        rw [List.getD_eq_getElem?_getD, List.getD_eq_getElem?_getD,
          List.getElem?_eq_getElem hu', List.getElem?_eq_getElem hu]
        simp [List.getElem_dropLast]
      rw [hud]
      exact hbound u (by omega)
    have hid := ih σ.dropLast ⟨hperm2, hbound2⟩
    rw [← hsplit, hid, ← List.range_succ]

theorem archiveEmitOrder_range (names : List String) :
    archiveEmitOrder names (List.range names.length) = names := by
  unfold archiveEmitOrder
  apply List.ext_getElem
  · simp
  · intro i h1 h2
    simp [List.getD_eq_getElem?_getD, List.getElem?_eq_getElem h2]

/-- On an error-free run the dispatch loop appends exactly one entry per
accepted non-irregular name, in dispatch (sorted) order. -/
theorem archiveLoop_entries_eq (cs : Compressors) (cfg : ArchiverConfig) (pool : Bool)
    (files : List (String × GoFileInfo)) : ∀ (names : List String) (st : AState),
    (archiveLoop cs cfg pool files st names).err = none →
    (archiveLoop cs cfg pool files st names).entries
      = st.entries ++ names.filterMap (fun n =>
          if (lookupFi files n).ftype = .irregular then none
          else (emitFor cs cfg pool n (lookupFi files n)).map Prod.fst) := by
  intro names
  induction names with
  | nil => intro st _; simp [archiveLoop]
  | cons n rest ih =>
    intro st hok
    simp only [archiveLoop] at hok ⊢
    by_cases hirr : (lookupFi files n).ftype = .irregular
    · rw [if_pos hirr] at hok ⊢
      rw [List.filterMap_cons, if_pos hirr]
      exact ih st hok
    · rw [if_neg hirr] at hok ⊢
      by_cases hacc : archiverAccepts cfg n = true
      · rw [if_pos hacc] at hok ⊢
        cases hE : emitFor cs cfg pool n (lookupFi files n) with
        | none =>
          rw [hE] at hok
          rw [List.filterMap_cons, if_neg hirr, hE]
          simpa using ih st hok
        | some p =>
          rw [hE] at hok
          rw [List.filterMap_cons, if_neg hirr, hE]
          rw [ih _ hok]
          simp
      · rw [if_neg hacc] at hok
        simp at hok

/-- Claim C3 counterexample: two regular keys at concurrency 2: the
completion order in which the second dispatched worker reaches the archive
mutex first is feasible, and it emits the entries in the order b, a —
not the ascending order of the keys. -/
theorem claim_C3_counterexample :
    validSched 2 2 [1, 0] ∧
    archiveEmitOrder ["a", "b"] [1, 0] = ["b", "a"] ∧
    sortStrings ["a", "b"] = ["a", "b"] ∧
    archiveEmitOrder ["a", "b"] [1, 0] ≠ sortStrings ["a", "b"] := by
  decide

/-- Claim C3 (amended): Archive dispatches entries in ascending
lexicographic key order (on an error-free run the emitted entry sequence of
the sequential linearisation is the per-name emission over the sorted
keys), and with concurrency 1 every feasible worker-completion order is the
dispatch order, so the ZIP order equals the ascending key order; with
concurrency greater than 1 the ZIP order of regular files is the
worker-completion order, which need not be ascending (see the
counterexample). -/
theorem claim_C3_amended :
    (∀ (names : List String) (σ : List Nat),
       validSched 1 names.length σ → archiveEmitOrder names σ = names) ∧
    (∀ (cs : Compressors) (cfg : ArchiverConfig) (files : List (String × GoFileInfo)),
       (archiveRun cs cfg files).err = none →
       (archiveRun cs cfg files).entries
         = (sortStrings (files.map Prod.fst)).filterMap (fun n =>
             if (lookupFi files n).ftype = .irregular then none
             else (emitFor cs cfg
               (decide (1 < min cfg.concurrency files.length)) n
               (lookupFi files n)).map Prod.fst)) := by
  constructor
  · intro names σ h
    rw [validSched_one names.length σ h]
    exact archiveEmitOrder_range names
  · intro cs cfg files hok
    have h := archiveLoop_entries_eq cs cfg (decide (1 < min cfg.concurrency files.length))
      files (sortStrings (files.map Prod.fst))
      { entries := [], written := 0, count := 0, err := none } hok
    rw [List.nil_append] at h
    exact h

/-- Witness for the amended C3 theorem: at concurrency 1 the only feasible
completion order for two workers emits in ascending order, and an error-free
concrete run emits the sorted dispatch sequence. -/
theorem claim_C3_amended_witness :
    archiveEmitOrder ["a", "b"] [0, 1] = ["a", "b"] ∧
    (archiveRun [(zipDeflate, tinyInflatingDeflate)] c9cfg c9files).entries
      = (sortStrings (c9files.map Prod.fst)).filterMap (fun n =>
          if (lookupFi c9files n).ftype = .irregular then none
          else (emitFor [(zipDeflate, tinyInflatingDeflate)] c9cfg
            (decide (1 < min c9cfg.concurrency c9files.length)) n
            (lookupFi c9files n)).map Prod.fst) :=
  ⟨claim_C3_amended.1 ["a", "b"] [0, 1] (by decide),
   claim_C3_amended.2 [(zipDeflate, tinyInflatingDeflate)] c9cfg c9files (by decide)⟩

/-! ## The extractor, from the source file holding Extractor.Extract

The filesystem is an association list from resolved absolute paths (lists
of components) to nodes.  Phase 1 iterates the central directory: skip
irregular modes, join the entry name to the chroot (filepath.Join cleans
the path lexically), reject paths outside the chroot, MkdirAll the parent,
create directories (mkdir, EEXIST ignored) and regular files (workers,
linearised at their dispatch point; sound for the claims because distinct
paths commute and any worker error aborts the run).  Symlink creation is
deferred to phase 2, which runs createSymlink sequentially; phase 3
re-applies directory metadata.  Cancellation and the written/entries
counters are not exercised by the claims handled here and are omitted.
Path resolution follows symlinks with the kernel's link-count budget;
during phase 1 no symlink exists in the filesystem (extraction starts from
a fresh chroot and symlinks are deferred), so MkdirAll is written with the
lexical walk it performs there, while remove / symlink / metadata calls
resolve parent components through the association list. -/

inductive FNode where
  | dir (perm : Nat) (mtime : Nat)
  | file (content : List Nat) (perm : Nat) (mtime : Nat)
  | symlink (target : String) (mtime : Nat)
deriving DecidableEq, Repr

abbrev Slot := List String
abbrev Fs := List (Slot × FNode)

def Fs.find : Fs → Slot → Option FNode
  | [], _ => none
  | (k, n) :: rest, s => if k = s then some n else Fs.find rest s

def Fs.erase (fs : Fs) (s : Slot) : Fs :=
  fs.filter (fun p => p.1 ≠ s)

def Fs.set (fs : Fs) (s : Slot) (n : FNode) : Fs :=
  (s, n) :: fs.erase s

/-- Does the directory at s contain any entry (a node one component below)? -/
def Fs.hasChild (fs : Fs) (s : Slot) : Bool :=
  fs.any (fun p => p.1.length = s.length + 1 && s.isPrefixOf p.1)

/-- Creating or unlinking a directory entry updates the parent directory's
modification time. -/
def Fs.touch (fs : Fs) (s : Slot) (now : Nat) : Fs :=
  match fs.find s with
  | some (.dir perm _) => fs.set s (.dir perm now)
  | some (.file c perm _) => fs.set s (.file c perm now)
  | some (.symlink t _) => fs.set s (.symlink t now)
  | none => fs

/-- The shape of a node: what path resolution observes (type, symlink
target); permissions, contents and times are erased. -/
def FNode.skel : FNode → FNode
  | .dir _ _ => .dir 0 0
  | .file _ _ _ => .file [] 0 0
  | .symlink t _ => .symlink t 0

def Fs.probe (fs : Fs) (q : Slot) : Option FNode :=
  (fs.find q).map FNode.skel

/-- The kernel's symbolic-link traversal budget (SYMLOOP_MAX). -/
def fuelN : Nat := 40

/-- One symlink-free stretch of directory resolution: "." is skipped,
".." pops, a directory descends, a missing component is ENOENT, a file is
ENOTDIR, and a symlink hands its spliced target (absolute targets restart
at the root) to the continuation, which accounts for the followed link. -/
def resolveDirStep (fs : Fs) (onLink : Slot → List String → Except Err Slot) :
    Slot → List String → Except Err Slot
  | cur, [] => .ok cur
  | cur, c :: rest =>
    if c = "." then resolveDirStep fs onLink cur rest
    else if c = ".." then resolveDirStep fs onLink cur.dropLast rest
    else
      match fs.probe (cur ++ [c]) with
      | some (.dir _ _) => resolveDirStep fs onLink (cur ++ [c]) rest
      | some (.file _ _ _) => .error .notDir
      | some (.symlink t _) =>
        if isAbsStr t then onLink [] (splitPath t ++ rest)
        else onLink cur (splitPath t ++ rest)
      | none => .error .notExist

/-- Resolve directory components from the root, following symlinks, with
the kernel's budget of link follows; exceeding it is ELOOP. -/
def resolveDir (fs : Fs) : Nat → Slot → List String → Except Err Slot
  | 0 => resolveDirStep fs (fun _ _ => .error .loop)
  | fuel + 1 => resolveDirStep fs (resolveDir fs fuel)

/-- One symlink-free stretch of whole-path resolution: as resolveDirStep,
but a non-directory node is accepted in final position (chmod-style
resolution, which follows a final symlink via the continuation). -/
def resolvePathStep (fs : Fs) (onLink : Slot → List String → Except Err Slot) :
    Slot → List String → Except Err Slot
  | cur, [] => .ok cur
  | cur, c :: rest =>
    if c = "." then resolvePathStep fs onLink cur rest
    else if c = ".." then resolvePathStep fs onLink cur.dropLast rest
    else
      match fs.probe (cur ++ [c]) with
      | some (.dir _ _) => resolvePathStep fs onLink (cur ++ [c]) rest
      | some (.symlink t _) =>
        if isAbsStr t then onLink [] (splitPath t ++ rest)
        else onLink cur (splitPath t ++ rest)
      | some _ =>
        match rest with
        | [] => .ok (cur ++ [c])
        | _ :: _ => .error .notDir
      | none => .error .notExist

/-- Resolve a whole path, following symlinks also in final position. -/
def resolvePath (fs : Fs) : Nat → Slot → List String → Except Err Slot
  | 0 => resolvePathStep fs (fun _ _ => .error .loop)
  | fuel + 1 => resolvePathStep fs (resolvePath fs fuel)

/-- os.Remove(path): unlink at the resolved parent; a non-empty directory
is ENOTEMPTY; the final component is not followed. -/
def removeGo (fs : Fs) (now : Nat) (p : Slot) : Except Err Fs :=
  match resolveDir fs fuelN [] p.dropLast with
  | .error e => .error e
  | .ok rp =>
    match fs.find (rp ++ [p.getLastD ""]) with
    | none => .error .notExist
    | some (.dir _ _) =>
      if fs.hasChild (rp ++ [p.getLastD ""]) then .error .notEmpty
      else .ok ((fs.erase (rp ++ [p.getLastD ""])).touch rp now)
    | some _ => .ok ((fs.erase (rp ++ [p.getLastD ""])).touch rp now)

/-- os.Symlink(target, path): EEXIST when the final entry exists; the final
component is not followed. -/
def symlinkGo (fs : Fs) (now : Nat) (target : String) (p : Slot) : Except Err Fs :=
  match resolveDir fs fuelN [] p.dropLast with
  | .error e => .error e
  | .ok rp =>
    match fs.find (rp ++ [p.getLastD ""]) with
    | some _ => .error .exist
    | none => .ok (Fs.touch ((rp ++ [p.getLastD ""], FNode.symlink target now) :: fs) rp now)

/-- lchtimes (unix.Lutimes): set the modification time without following
the final component. -/
def lchtimesGo (fs : Fs) (mtime : Nat) (p : Slot) : Except Err Fs :=
  match resolveDir fs fuelN [] p.dropLast with
  | .error e => .error e
  | .ok rp =>
    match fs.find (rp ++ [p.getLastD ""]) with
    | none => .error .notExist
    | some (.dir perm _) => .ok (fs.set (rp ++ [p.getLastD ""]) (.dir perm mtime))
    | some (.file c perm _) => .ok (fs.set (rp ++ [p.getLastD ""]) (.file c perm mtime))
    | some (.symlink t _) => .ok (fs.set (rp ++ [p.getLastD ""]) (.symlink t mtime))

/-- lchmod on linux (extractor_unix.go): no-op when the entry mode carries
the symlink bit, otherwise Fchmodat with no flag, which follows a final
symlink. -/
def lchmodGo (fs : Fs) (entryIsSymlink : Bool) (perm : Nat) (p : Slot) : Except Err Fs :=
  if entryIsSymlink then .ok fs
  else
    match resolvePath fs fuelN [] p with
    | .error e => .error e
    | .ok slot =>
      match fs.find slot with
      | none => .error .notExist
      | some (.dir _ m) => .ok (fs.set slot (.dir perm m))
      | some (.file c _ m) => .ok (fs.set slot (.file c perm m))
      | some (.symlink _ _) => .ok fs

/-- A central-directory entry as the extractor views it: name, mode (file
type and permission bits), modification time, decompressed data (file
contents, or the symlink target as a UTF-8 string). -/
structure ZEntry where
  name : String
  kind : GoType
  perm : Nat
  mtime : Nat
  content : List Nat
  target : String
deriving DecidableEq, Repr

/-- filepath.Abs(filepath.Join(chroot, name)): lexical join and clean. -/
def entryPath (chroot : Slot) (name : String) : Slot :=
  cleanAbs (chroot ++ splitPath name)

/-- The extractor chroot check on the path strings:
strings.HasPrefix(path, chroot+Separator) || path == chroot. -/
def extractCheck (chroot : Slot) (p : Slot) : Bool :=
  strStarts (renderAbs chroot ++ ['/']) (renderAbs p) || renderAbs p == renderAbs chroot

/-- os.MkdirAll(path, 0777): walk the components, descending through
existing directories, failing on a non-directory, creating missing
directories (touching each new directory's parent).  Partial progress is
kept on error, as on a real filesystem.  Extraction starts from a fresh
chroot and symlinks are deferred, so no symlink can appear on this walk
and the lexical descent is the resolution MkdirAll performs. -/
def mkdirAllGo (fs : Fs) (now : Nat) (cur : Slot) (rest : List String) : Fs × Option Err :=
  match rest with
  | [] => (fs, none)
  | c :: rest =>
    let slot := cur ++ [c]
    match fs.find slot with
    | some (.dir _ _) => mkdirAllGo fs now slot rest
    | some _ => (fs, some .notDir)
    | none => mkdirAllGo (Fs.touch ((slot, FNode.dir 511 now) :: fs) cur now) now slot rest

/-- Extractor.createDirectory: os.Mkdir(path, 0777) with EEXIST ignored. -/
def createDirectoryGo (fs : Fs) (now : Nat) (p : Slot) : Except Err Fs :=
  match resolveDir fs fuelN [] p.dropLast with
  | .error e => .error e
  | .ok rp =>
    match fs.find (rp ++ [p.getLastD ""]) with
    | some _ => .ok fs
    | none => .ok (Fs.touch ((rp ++ [p.getLastD ""], FNode.dir 511 now) :: fs) rp now)

/-- updateFileMetadata: parse the extra fields (the model carries none, so
parsing cannot fail), lchtimes with the entry's modification time, lchmod
with the entry's mode; chown is not modelled (uid and gid are absent) and
its failures are ignored without a configured handler. -/
def updateFileMetadataGo (fs : Fs) (e : ZEntry) (p : Slot) : Except Err Fs :=
  match lchtimesGo fs e.mtime p with
  | .error er => .error er
  | .ok fs1 => lchmodGo fs1 (e.kind = .symlink) e.perm p

/-- Extractor.createFile (one worker, run at its dispatch point): remove
any existing node (IsNotExist ignored), then open create+truncate with
mode 0666 and copy the entry's bytes.  In phase 1 the filesystem holds no
symlinks, so the open cannot traverse or follow one. -/
def createFileGo (fs : Fs) (now : Nat) (e : ZEntry) (p : Slot) : Except Err Fs :=
  match (match removeGo fs now p with
         | .error .notExist => .ok fs
         | r => r : Except Err Fs) with
  | .error er => .error er
  | .ok fs1 =>
    match resolveDir fs1 fuelN [] p.dropLast with
    | .error er => .error er
    | .ok rp =>
      match fs1.find (rp ++ [p.getLastD ""]) with
      | some (.dir _ _) => .error .ioErr
      | _ => .ok (Fs.touch (fs1.set (rp ++ [p.getLastD ""]) (.file e.content 438 now)) rp now)

/-- Extractor.createSymlink: remove any existing node (IsNotExist
ignored), read the target from the entry's data, os.Symlink it into place,
then restore the symlink's metadata. -/
def createSymlinkGo (fs : Fs) (now : Nat) (e : ZEntry) (p : Slot) : Except Err Fs :=
  match (match removeGo fs now p with
         | .error .notExist => .ok fs
         | r => r : Except Err Fs) with
  | .error er => .error er
  | .ok fs1 =>
    match symlinkGo fs1 now e.target p with
    | .error er => .error er
    | .ok fs2 => updateFileMetadataGo fs2 e p

/-- Phase 1 of Extract: directories and regular files, symlinks deferred;
the first error stops the run (the filesystem reached so far is kept). -/
def phase1 (chroot : Slot) (now : Nat) (fs : Fs) : List ZEntry → Fs × Option Err
  | [] => (fs, none)
  | e :: rest =>
    if e.kind = .irregular then phase1 chroot now fs rest
    else
      let p := entryPath chroot e.name
      if extractCheck chroot p = false then (fs, some .outsideChroot)
      else
        match mkdirAllGo fs now [] p.dropLast with
        | (fs1, some er) => (fs1, some er)
        | (fs1, none) =>
          match e.kind with
          | .symlink => phase1 chroot now fs1 rest
          | .directory =>
            match createDirectoryGo fs1 now p with
            | .error er => (fs1, some er)
            | .ok fs2 => phase1 chroot now fs2 rest
          | _ =>
            match (match createFileGo fs1 now e p with
                   | .error er => .error er
                   | .ok fs2 => updateFileMetadataGo fs2 e p : Except Err Fs) with
            | .error er => (fs1, some er)
            | .ok fs2 => phase1 chroot now fs2 rest

/-- Phase 2 of Extract: sequential symlink creation in archive order. -/
def phase2 (chroot : Slot) (now : Nat) (fs : Fs) : List ZEntry → Fs × Option Err
  | [] => (fs, none)
  | e :: rest =>
    if e.kind = .symlink then
      match createSymlinkGo fs now e (entryPath chroot e.name) with
      | .error er => (fs, some er)
      | .ok fs1 => phase2 chroot now fs1 rest
    else phase2 chroot now fs rest

/-- Phase 3 of Extract: re-apply every directory entry's metadata. -/
def phase3 (chroot : Slot) (now : Nat) (fs : Fs) : List ZEntry → Fs × Option Err
  | [] => (fs, none)
  | e :: rest =>
    if e.kind = .directory then
      match updateFileMetadataGo fs e (entryPath chroot e.name) with
      | .error er => (fs, some er)
      | .ok fs1 => phase3 chroot now fs1 rest
    else phase3 chroot now fs rest

/-- Extractor.Extract: the three strictly ordered phases. -/
def extractRun (chroot : Slot) (now : Nat) (entries : List ZEntry) (fs0 : Fs) :
    Fs × Option Err :=
  match phase1 chroot now fs0 entries with
  | (fs, some er) => (fs, some er)
  | (fs, none) =>
    match phase2 chroot now fs entries with
    | (fs, some er) => (fs, some er)
    | (fs, none) => phase3 chroot now fs entries

/-- A fresh extraction root: the chroot directory and its ancestors, and
nothing else. -/
def chrootFs (chroot : Slot) : Fs :=
  (List.range (chroot.length + 1)).map (fun i => (chroot.take i, FNode.dir 511 0))

/-! ### Association-list filesystem facts -/

theorem Fs.find_isSome_iff_mem (fs : Fs) (q : Slot) :
    (fs.find q).isSome ↔ ∃ n, (q, n) ∈ fs := by
  induction fs with
  | nil => simp [Fs.find]
  | cons kv rest ih =>
    obtain ⟨k, n⟩ := kv
    by_cases hk : k = q
    · subst hk
      simp [Fs.find]
    · simp only [Fs.find, if_neg hk, ih, List.mem_cons]
      constructor
      · rintro ⟨m, hm⟩
        exact ⟨m, Or.inr hm⟩
      · rintro ⟨m, hm | hm⟩
        · cases hm
          exact absurd rfl hk
        · exact ⟨m, hm⟩

theorem Fs.find_erase (fs : Fs) (s q : Slot) :
    (fs.erase s).find q = if q = s then none else fs.find q := by
  induction fs with
  | nil =>
    unfold Fs.erase
    simp only [List.filter_nil]
    split_ifs <;> rfl
  | cons kv rest ih =>
    obtain ⟨k, n⟩ := kv
    unfold Fs.erase at ih ⊢
    rw [List.filter_cons]
    by_cases hks : k = s
    · rw [if_neg (by simp [hks]), ih]
      by_cases hqs : q = s
      · simp [hqs]
      · rw [if_neg hqs, if_neg hqs]
        rw [show Fs.find ((k, n) :: rest) q = if k = q then some n else Fs.find rest q from rfl]
        rw [if_neg (by rw [hks]; intro h; exact hqs h.symm)]
    · rw [if_pos (by simp [hks])]
      rw [show Fs.find ((k, n) :: List.filter (fun p => decide (p.1 ≠ s)) rest) q
          = if k = q then some n else Fs.find (List.filter (fun p => decide (p.1 ≠ s)) rest) q
          from rfl]
      rw [show Fs.find ((k, n) :: rest) q = if k = q then some n else Fs.find rest q from rfl]
      by_cases hkq : k = q
      · rw [if_pos hkq, if_pos hkq, if_neg (by rw [← hkq]; exact fun h => hks h)]
      · rw [if_neg hkq, if_neg hkq, ih]

theorem Fs.find_set (fs : Fs) (s q : Slot) (n : FNode) :
    (fs.set s n).find q = if q = s then some n else fs.find q := by
  simp only [Fs.set]
  rw [show Fs.find ((s, n) :: fs.erase s) q = if s = q then some n else (fs.erase s).find q
      from rfl]
  rw [Fs.find_erase]
  by_cases hq : q = s
  · rw [if_pos (by rw [hq]), if_pos hq]
  · rw [if_neg (by intro h; exact hq h.symm), if_neg hq, if_neg hq]

theorem Fs.find_cons (fs : Fs) (s q : Slot) (n : FNode) :
    (Fs.find ((s, n) :: fs) q) = if s = q then some n else fs.find q := rfl

theorem Fs.probe_touch (fs : Fs) (s : Slot) (now : Nat) (q : Slot) :
    (fs.touch s now).probe q = fs.probe q := by
  unfold Fs.touch
  cases hf : fs.find s with
  | none => rfl
  | some n =>
    cases n <;>
      (simp only [Fs.probe, Fs.find_set]
       by_cases hq : q = s
       · subst hq
         rw [if_pos rfl, hf]
         rfl
       · rw [if_neg hq])

theorem Fs.probe_erase (fs : Fs) (s q : Slot) :
    (fs.erase s).probe q = if q = s then none else fs.probe q := by
  simp only [Fs.probe, Fs.find_erase]
  by_cases hq : q = s <;> simp [hq]

def isDirAt (fs : Fs) (q : Slot) : Prop :=
  ∃ p m, fs.find q = some (.dir p m)

theorem isDirAt_of_probe {fs fs' : Fs} (h : ∀ q, fs.probe q = fs'.probe q) (q : Slot) :
    isDirAt fs q → isDirAt fs' q := by
  rintro ⟨p, m, hf⟩
  have hp := h q
  simp only [Fs.probe, hf] at hp
  cases hf' : fs'.find q with
  | none => rw [hf'] at hp; simp [FNode.skel] at hp
  | some n =>
    rw [hf'] at hp
    cases n with
    | dir p' m' => exact ⟨p', m', hf'⟩
    | file c' p' m' => simp [FNode.skel] at hp
    | symlink t' m' => simp [FNode.skel] at hp

theorem isSome_of_probe {fs fs' : Fs} (h : ∀ q, fs.probe q = fs'.probe q) (q : Slot) :
    (fs.find q).isSome → (fs'.find q).isSome := by
  intro hq
  have hp := h q
  cases hf : fs.find q with
  | none => rw [hf] at hq; simp at hq
  | some n =>
    simp only [Fs.probe, hf] at hp
    cases hf' : fs'.find q with
    | none => rw [hf'] at hp; simp at hp
    | some n' => simp

theorem Fs.hasChild_iff (fs : Fs) (s : Slot) :
    fs.hasChild s = true ↔ ∃ c, (fs.find (s ++ [c])).isSome := by
  unfold Fs.hasChild
  rw [List.any_eq_true]
  constructor
  · rintro ⟨⟨k, n⟩, hmem, hk⟩
    simp only [Bool.and_eq_true, decide_eq_true_eq] at hk
    obtain ⟨hlen, hpre⟩ := hk
    obtain ⟨suf, hsuf⟩ := (List.isPrefixOf_iff_prefix.mp hpre : s <+: k)
    have hsl : suf.length = 1 := by
      have := congrArg List.length hsuf
      simp at this
      omega
    obtain ⟨c, hc⟩ : ∃ c, suf = [c] := by
      cases suf with
      | nil => simp at hsl
      | cons a t =>
        cases t with
        | nil => exact ⟨a, rfl⟩
        | cons b u => simp at hsl
    refine ⟨c, ?_⟩
    rw [Fs.find_isSome_iff_mem]
    exact ⟨n, by rwa [← hc, hsuf]⟩
  · rintro ⟨c, hc⟩
    rw [Fs.find_isSome_iff_mem] at hc
    obtain ⟨n, hn⟩ := hc
    refine ⟨(s ++ [c], n), hn, ?_⟩
    simp [List.isPrefixOf_iff_prefix]

/-! ### Path facts: cleaned components and the chroot-check strings -/

/-- Components a cleaned path may contain: produced by splitPath, so
nonempty and free of the separator. -/
def goodPath (p : Slot) : Prop := ∀ c ∈ p, c ≠ "" ∧ '/' ∉ c.data

/-- cleanAbs output never contains "." or "..". -/
def noDots (p : Slot) : Prop := ∀ c ∈ p, c ≠ "." ∧ c ≠ ".."

theorem splitCharsAux_good : ∀ (cs acc : List Char), (∀ c ∈ acc, c ≠ '/') →
    goodPath (splitCharsAux acc cs) := by
  intro cs
  induction cs with
  | nil =>
    intro acc hacc
    unfold splitCharsAux
    by_cases h : acc.isEmpty
    · rw [if_pos h]; intro c hc; simp at hc
    · rw [if_neg h]
      intro c hc
      simp only [List.mem_singleton] at hc
      subst hc
      constructor
      · intro h0
        have : acc = [] := by
          have := congrArg String.data h0
          simpa using this
        rw [List.isEmpty_iff] at h
        exact h this
      · intro hmem
        simp only [List.mem_reverse] at hmem
        exact hacc _ hmem rfl
  | cons a rest ih =>
    intro acc hacc
    unfold splitCharsAux
    by_cases ha : a = '/'
    · rw [if_pos ha]
      by_cases he : acc.isEmpty
      · rw [if_pos he]; exact ih [] (by simp)
      · rw [if_neg he]
        intro c hc
        rcases List.mem_cons.mp hc with hc | hc
        · subst hc
          refine ⟨?_, ?_⟩
          · intro h0
            have : acc = [] := by
              have := congrArg String.data h0
              simpa using this
            rw [List.isEmpty_iff] at he
            exact he this
          · intro hmem
            simp only [List.mem_reverse] at hmem
            exact hacc _ hmem rfl
        · exact ih [] (by simp) c hc
    · rw [if_neg ha]
      exact ih (a :: acc) (by
        intro c hc
        rcases List.mem_cons.mp hc with hc | hc
        · subst hc; exact ha
        · exact hacc _ hc)

theorem splitPath_good (s : String) : goodPath (splitPath s) :=
  splitCharsAux_good s.data [] (by simp)

/-- Every component of cleanAbs output occurs in the input and is not a
dot component. -/
theorem cleanAbs_mem : ∀ (comps acc : List String), ∀ c ∈ comps.foldl
    (fun acc c => if c = "." then acc else if c = ".." then acc.dropLast else acc ++ [c]) acc,
    c ∈ acc ∨ (c ∈ comps ∧ c ≠ "." ∧ c ≠ "..") := by
  intro comps
  induction comps with
  | nil => intro acc c hc; exact Or.inl hc
  | cons x rest ih =>
    intro acc c hc
    simp only [List.foldl_cons] at hc
    by_cases hx1 : x = "."
    · rw [if_pos hx1] at hc
      rcases ih acc c hc with h | ⟨h1, h2⟩
      · exact Or.inl h
      · exact Or.inr ⟨List.mem_cons_of_mem _ h1, h2⟩
    · rw [if_neg hx1] at hc
      by_cases hx2 : x = ".."
      · rw [if_pos hx2] at hc
        rcases ih acc.dropLast c hc with h | ⟨h1, h2⟩
        · exact Or.inl (List.dropLast_subset _ h)
        · exact Or.inr ⟨List.mem_cons_of_mem _ h1, h2⟩
      · rw [if_neg hx2] at hc
        rcases ih (acc ++ [x]) c hc with h | ⟨h1, h2⟩
        · rcases List.mem_append.mp h with h | h
          · exact Or.inl h
          · simp only [List.mem_singleton] at h
            subst h
            exact Or.inr ⟨List.mem_cons_self _ _, hx1, hx2⟩
        · exact Or.inr ⟨List.mem_cons_of_mem _ h1, h2⟩

theorem cleanAbs_noDots (comps : List String) : noDots (cleanAbs comps) := by
  intro c hc
  rcases cleanAbs_mem comps [] c hc with h | ⟨_, h2⟩
  · simp at h
  · exact h2

theorem cleanAbs_good (comps : List String) (h : ∀ c ∈ comps, c ≠ "" ∧ '/' ∉ c.data) :
    goodPath (cleanAbs comps) := by
  intro c hc
  rcases cleanAbs_mem comps [] c hc with h0 | ⟨h1, _⟩
  · simp at h0
  · exact h c h1

theorem entryPath_noDots (chroot : Slot) (name : String) : noDots (entryPath chroot name) :=
  cleanAbs_noDots _

theorem entryPath_good (chroot : Slot) (name : String) (hch : goodPath chroot) :
    goodPath (entryPath chroot name) := by
  apply cleanAbs_good
  intro c hc
  rcases List.mem_append.mp hc with h | h
  · exact hch c h
  · exact splitPath_good name c h

/-- '/'-before-each-component rendering used for nonempty paths. -/
def renderD (p : Slot) : List Char :=
  p.flatMap (fun c => '/' :: c.data)

theorem renderD_nil : renderD [] = [] := rfl

theorem renderD_cons (c : String) (p : Slot) :
    renderD (c :: p) = '/' :: c.data ++ renderD p := rfl

theorem foldr_renderD : ∀ p : Slot,
    List.foldr (fun c acc => '/' :: c.data ++ acc) [] p = renderD p := by
  intro p
  induction p with
  | nil => rfl
  | cons c r ih => rw [List.foldr_cons, ih, renderD_cons]

theorem renderAbs_eq (p : Slot) : renderAbs p = if p = [] then ['/'] else renderD p := by
  cases p with
  | nil => rfl
  | cons c rest =>
    rw [if_neg (by simp)]
    exact foldr_renderD (c :: rest)

theorem renderD_head (p : Slot) : p = [] ∨ ∃ t, renderD p = '/' :: t := by
  cases p with
  | nil => exact Or.inl rfl
  | cons c rest => exact Or.inr ⟨c.data ++ renderD rest, rfl⟩

theorem strStarts_app (a x y : List Char) :
    strStarts (a ++ x) (a ++ y) = strStarts x y := by
  induction a with
  | nil => rfl
  | cons c rest ih => simp [strStarts, ih]

theorem strStarts_of_append (a b : List Char) : strStarts a (a ++ b) = true := by
  induction a with
  | nil => rfl
  | cons c rest ih => simp [strStarts, ih]

theorem strStarts_nil_right (a : List Char) (c : Char) (r : List Char) :
    strStarts (c :: r) [] = false := rfl

/-- Peeling one slash-free component from a slash-delimited string: if both
sides continue with a slash-headed (or empty) remainder, the components
agree. -/
theorem comp_peel : ∀ (c d u v : List Char), ('/' ∉ c) → ('/' ∉ d) →
    (v = [] ∨ ∃ t, v = '/' :: t) →
    strStarts (c ++ '/' :: u) (d ++ v) = true →
    c = d ∧ strStarts ('/' :: u) v = true := by
  intro c
  induction c with
  | nil =>
    intro d u v hc hd hv hs
    cases d with
    | nil => exact ⟨rfl, hs⟩
    | cons e d2 =>
      simp only [List.nil_append, List.cons_append, strStarts, Bool.and_eq_true,
        decide_eq_true_eq] at hs
      refine absurd ?_ hd
      rw [← hs.1]
      exact List.mem_cons_self _ _
  | cons a c2 ih =>
    intro d u v hc hd hv hs
    cases d with
    | nil =>
      rcases hv with hv | ⟨t, hv⟩
      · subst hv
        simp [strStarts] at hs
      · subst hv
        simp only [List.cons_append, List.nil_append, strStarts, Bool.and_eq_true,
          decide_eq_true_eq] at hs
        refine absurd ?_ hc
        rw [hs.1]
        exact List.mem_cons_self _ _
    | cons e d2 =>
      simp only [List.cons_append, strStarts, Bool.and_eq_true, decide_eq_true_eq] at hs
      obtain ⟨hae, hs2⟩ := hs
      have := ih d2 u v (fun h => hc (List.mem_cons_of_mem _ h))
        (fun h => hd (List.mem_cons_of_mem _ h)) hv hs2
      exact ⟨by rw [hae, this.1], this.2⟩

/-- Slash-free components with slash-headed (or empty) remainders decompose
string equality. -/
theorem comp_peel_eq : ∀ (c d u v : List Char), ('/' ∉ c) → ('/' ∉ d) →
    (u = [] ∨ ∃ t, u = '/' :: t) → (v = [] ∨ ∃ t, v = '/' :: t) →
    c ++ u = d ++ v → c = d ∧ u = v := by
  intro c
  induction c with
  | nil =>
    intro d u v hc hd hu hv he
    cases d with
    | nil => exact ⟨rfl, he⟩
    | cons e d2 =>
      simp only [List.nil_append] at he
      rcases hu with hu | ⟨t, hu⟩
      · subst hu; simp at he
      · subst hu
        injection he with h1 h2
        refine absurd ?_ hd
        rw [← h1]
        exact List.mem_cons_self _ _
  | cons a c2 ih =>
    intro d u v hc hd hu hv he
    cases d with
    | nil =>
      simp only [List.nil_append] at he
      rcases hv with hv | ⟨t, hv⟩
      · subst hv; simp at he
      · subst hv
        injection he with h1 h2
        refine absurd ?_ hc
        rw [h1]
        exact List.mem_cons_self _ _
    | cons e d2 =>
      simp only [List.cons_append] at he
      injection he with h1 h2
      have := ih d2 u v (fun h => hc (List.mem_cons_of_mem _ h))
        (fun h => hd (List.mem_cons_of_mem _ h)) hu hv h2
      exact ⟨by rw [h1, this.1], this.2⟩

/-- Rendering is injective on good paths. -/
theorem renderD_inj : ∀ (a b : Slot), goodPath a → goodPath b →
    renderD a = renderD b → a = b := by
  intro a
  induction a with
  | nil =>
    intro b _ hb he
    cases b with
    | nil => rfl
    | cons d b2 =>
      rw [renderD_nil, renderD_cons] at he
      simp at he
  | cons c a2 ih =>
    intro b ha hb he
    cases b with
    | nil =>
      rw [renderD_nil, renderD_cons] at he
      simp at he
    | cons d b2 =>
      rw [renderD_cons, renderD_cons] at he
      injection he with h1 h2
      have hpeel := comp_peel_eq c.data d.data (renderD a2) (renderD b2)
        (ha c (List.mem_cons_self _ _)).2 (hb d (List.mem_cons_self _ _)).2
        (by rcases renderD_head a2 with h | h
            · exact Or.inl (by rw [h, renderD_nil])
            · exact Or.inr h)
        (by rcases renderD_head b2 with h | h
            · exact Or.inl (by rw [h, renderD_nil])
            · exact Or.inr h)
        h2
      have hcd : c = d := by
        cases c
        cases d
        exact congrArg String.mk hpeel.1
      rw [hcd, ih b2 (fun x hx => ha x (List.mem_cons_of_mem _ hx))
        (fun x hx => hb x (List.mem_cons_of_mem _ hx)) hpeel.2]

theorem renderD_slash (cr : Slot) : ∃ u, renderD cr ++ ['/'] = '/' :: u := by
  rcases renderD_head cr with h | ⟨t, h⟩
  · exact ⟨[], by rw [h, renderD_nil]; rfl⟩
  · exact ⟨t ++ ['/'], by rw [h]; rfl⟩

theorem strStarts_renderD_iff : ∀ (chroot p : Slot), goodPath chroot → goodPath p →
    (strStarts (renderD chroot ++ ['/']) (renderD p) = true ↔ (chroot <+: p ∧ chroot ≠ p)) := by
  intro chroot
  induction chroot with
  | nil =>
    intro p _ hp
    cases p with
    | nil => simp [renderD_nil, strStarts]
    | cons d pr =>
      rw [renderD_nil, List.nil_append, renderD_cons]
      simp [strStarts]
  | cons c cr ih =>
    intro p hch hp
    cases p with
    | nil =>
      rw [renderD_nil, renderD_cons]
      simp [strStarts]
    | cons d pr =>
      rw [renderD_cons, renderD_cons]
      obtain ⟨u, hu⟩ := renderD_slash cr
      constructor
      · intro hs
        have hs2 : strStarts (c.data ++ ('/' :: u)) (d.data ++ renderD pr) = true := by
          rw [← hu]
          simpa [strStarts, List.append_assoc] using hs
        have hpeel := comp_peel c.data d.data u (renderD pr)
          (hch c (List.mem_cons_self _ _)).2 (hp d (List.mem_cons_self _ _)).2
          (by rcases renderD_head pr with h | h
              · exact Or.inl (by rw [h, renderD_nil])
              · exact Or.inr h)
          hs2
        have hcd : c = d := by
          cases c
          cases d
          exact congrArg String.mk hpeel.1
        have hrest : strStarts (renderD cr ++ ['/']) (renderD pr) = true := by
          rw [hu]
          exact hpeel.2
        have := (ih pr (fun x hx => hch x (List.mem_cons_of_mem _ hx))
          (fun x hx => hp x (List.mem_cons_of_mem _ hx))).mp hrest
        refine ⟨?_, ?_⟩
        · rw [hcd]
          exact (List.cons_prefix_cons).mpr ⟨rfl, this.1⟩
        · intro h
          injection h with h1 h2
          exact this.2 h2
      · rintro ⟨hpre, hne⟩
        obtain ⟨hcd, hpre2⟩ := (List.cons_prefix_cons).mp hpre
        have hne2 : cr ≠ pr := by
          intro h
          exact hne (by rw [hcd, h])
        have hrest := (ih pr (fun x hx => hch x (List.mem_cons_of_mem _ hx))
          (fun x hx => hp x (List.mem_cons_of_mem _ hx))).mpr ⟨hpre2, hne2⟩
        rw [← hcd]
        have hstep : strStarts (c.data ++ (renderD cr ++ ['/'])) (c.data ++ renderD pr)
            = true := by
          rw [strStarts_app]
          exact hrest
        simpa [strStarts, List.append_assoc] using hstep

/-- The extractor chroot check accepts exactly the paths having the chroot
as a component prefix (for a nonempty chroot over good components): the
string test path == chroot or HasPrefix(path, chroot+"/") coincides with
List.IsPrefix on the components. -/
theorem extractCheck_iff (chroot p : Slot) (hne : chroot ≠ []) (hch : goodPath chroot)
    (hp : goodPath p) : extractCheck chroot p = true ↔ chroot <+: p := by
  unfold extractCheck
  rw [Bool.or_eq_true, renderAbs_eq chroot, renderAbs_eq p, if_neg hne]
  by_cases hpe : p = []
  · subst hpe
    rw [if_pos rfl]
    constructor
    · rintro (h | h)
      · obtain ⟨u, hu⟩ := renderD_slash chroot
        exfalso
        cases chroot with
        | nil => exact hne rfl
        | cons c cr =>
          rw [renderD_cons] at h
          rcases hdat : c.data with _ | ⟨x, xs⟩
          · exact (hch c (List.mem_cons_self _ _)).1
              (by cases c; exact congrArg String.mk hdat)
          · rw [hdat] at h
            simp [strStarts] at h
      · exfalso
        rw [beq_iff_eq] at h
        cases chroot with
        | nil => exact hne rfl
        | cons c cr =>
          rw [renderD_cons] at h
          have := congrArg List.length h
          simp at this
          have hc := (hch c (List.mem_cons_self _ _)).1
          have hdl : c.data = [] := List.length_eq_zero.mp this.1
          exact hc (by cases c; exact congrArg String.mk hdl)
    · intro h
      exact absurd (List.prefix_nil.mp h) hne
  · rw [if_neg hpe]
    rw [beq_iff_eq]
    constructor
    · rintro (h | h)
      · exact ((strStarts_renderD_iff chroot p hch hp).mp h).1
      · rw [renderD_inj p chroot hp hch h]
    · intro h
      by_cases heq : chroot = p
      · exact Or.inr (by rw [heq])
      · exact Or.inl ((strStarts_renderD_iff chroot p hch hp).mpr ⟨h, heq⟩)

/-! ### Resolution facts -/

theorem resolveDirStep_lex (fs : Fs) (onLink : Slot → List String → Except Err Slot) :
    ∀ (work cur : Slot),
    (∀ c ∈ work, c ≠ "." ∧ c ≠ "..") →
    (∀ n, n < work.length → isDirAt fs (cur ++ work.take (n + 1))) →
    resolveDirStep fs onLink cur work = .ok (cur ++ work) := by
  intro work
  induction work with
  | nil => intro cur _ _; simp [resolveDirStep]
  | cons c rest ih =>
    intro cur hdots hdirs
    obtain ⟨hc1, hc2⟩ := hdots c (List.mem_cons_self _ _)
    unfold resolveDirStep
    rw [if_neg hc1, if_neg hc2]
    obtain ⟨p, m, hf⟩ := hdirs 0 (by simp)
    simp only [List.take_succ_cons, List.take_zero] at hf
    rw [show fs.probe (cur ++ [c]) = some (FNode.dir 0 0) from by
      simp [Fs.probe, hf, FNode.skel]]
    rw [ih (cur ++ [c])
      (fun x hx => hdots x (List.mem_cons_of_mem _ hx))
      (fun n hn => by
        have := hdirs (n + 1) (by simpa using Nat.succ_lt_succ hn)
        simpa [List.take_succ_cons, List.append_assoc] using this)]
    simp

theorem resolveDir_lex (fs : Fs) (fuel : Nat) (work : Slot)
    (hdots : ∀ c ∈ work, c ≠ "." ∧ c ≠ "..")
    (hdirs : ∀ n, n < work.length → isDirAt fs (work.take (n + 1))) :
    resolveDir fs fuel [] work = .ok work := by
  cases fuel with
  | zero =>
    have := resolveDirStep_lex fs (fun _ _ => .error .loop) work [] hdots
      (by simpa using hdirs)
    simpa [resolveDir] using this
  | succ fuel =>
    have := resolveDirStep_lex fs (resolveDir fs fuel) work [] hdots
      (by simpa using hdirs)
    simpa [resolveDir] using this

theorem resolveDirStep_congr (fs fs' : Fs) (hpr : ∀ q, fs.probe q = fs'.probe q)
    (onLink onLink' : Slot → List String → Except Err Slot)
    (honk : ∀ c w, onLink c w = onLink' c w) :
    ∀ (work cur : Slot),
    resolveDirStep fs onLink cur work = resolveDirStep fs' onLink' cur work := by
  intro work
  induction work with
  | nil => intro cur; rfl
  | cons c rest ih =>
    intro cur
    unfold resolveDirStep
    by_cases hc1 : c = "."
    · rw [if_pos hc1, if_pos hc1, ih]
    · rw [if_neg hc1, if_neg hc1]
      by_cases hc2 : c = ".."
      · rw [if_pos hc2, if_pos hc2, ih]
      · rw [if_neg hc2, if_neg hc2, ← hpr (cur ++ [c])]
        cases fs.probe (cur ++ [c]) with
        | none => rfl
        | some n =>
          cases n with
          | dir _ _ => exact ih (cur ++ [c])
          | file _ _ _ => rfl
          | symlink t _ =>
            by_cases ha : isAbsStr t = true
            · simp only [if_pos ha]
              exact honk _ _
            · simp only [if_neg ha]
              exact honk _ _

theorem resolveDir_congr (fs fs' : Fs) (hpr : ∀ q, fs.probe q = fs'.probe q) :
    ∀ (fuel : Nat) (cur work : Slot),
    resolveDir fs fuel cur work = resolveDir fs' fuel cur work := by
  intro fuel
  induction fuel with
  | zero =>
    intro cur work
    exact resolveDirStep_congr fs fs' hpr _ _ (fun _ _ => rfl) work cur
  | succ fuel ih =>
    intro cur work
    exact resolveDirStep_congr fs fs' hpr _ _ (fun c w => ih c w) work cur

/-- Removing one binding can only turn a resolution into the same result or
an error (the erased slot reads as missing). -/
theorem resolveDirStep_erase (fs : Fs) (r : Slot)
    (onLink onLink' : Slot → List String → Except Err Slot)
    (honk : ∀ c w, onLink' c w = onLink c w ∨ ∃ e, onLink' c w = .error e) :
    ∀ (work cur : Slot),
    resolveDirStep (fs.erase r) onLink' cur work = resolveDirStep fs onLink cur work ∨
      ∃ e, resolveDirStep (fs.erase r) onLink' cur work = .error e := by
  intro work
  induction work with
  | nil => intro cur; exact Or.inl rfl
  | cons c rest ih =>
    intro cur
    unfold resolveDirStep
    by_cases hc1 : c = "."
    · rw [if_pos hc1, if_pos hc1]; exact ih cur
    · rw [if_neg hc1, if_neg hc1]
      by_cases hc2 : c = ".."
      · rw [if_pos hc2, if_pos hc2]; exact ih cur.dropLast
      · rw [if_neg hc2, if_neg hc2]
        by_cases hr : cur ++ [c] = r
        · rw [Fs.probe_erase, if_pos hr]
          exact Or.inr ⟨.notExist, rfl⟩
        · rw [Fs.probe_erase, if_neg hr]
          cases fs.probe (cur ++ [c]) with
          | none => exact Or.inl rfl
          | some n =>
            cases n with
            | dir _ _ => exact ih (cur ++ [c])
            | file _ _ _ => exact Or.inl rfl
            | symlink t _ =>
              by_cases ha : isAbsStr t = true
              · simp only [if_pos ha]; exact honk _ _
              · simp only [if_neg ha]; exact honk _ _

theorem resolveDir_erase (fs : Fs) (r : Slot) :
    ∀ (fuel : Nat) (cur work : Slot),
    resolveDir (fs.erase r) fuel cur work = resolveDir fs fuel cur work ∨
      ∃ e, resolveDir (fs.erase r) fuel cur work = .error e := by
  intro fuel
  induction fuel with
  | zero =>
    intro cur work
    exact resolveDirStep_erase fs r _ _ (fun _ _ => Or.inl rfl) work cur
  | succ fuel ih =>
    intro cur work
    exact resolveDirStep_erase fs r _ _ (fun c w => ih c w) work cur

/-! ### Node shapes and pointwise filesystem growth -/

/-- The constructor of a node: directory 0, regular file 1, symlink 2. -/
def FNode.tag : FNode → Nat
  | .dir _ _ => 0
  | .file _ _ _ => 1
  | .symlink _ _ => 2

/-- The modification time a node carries. -/
def FNode.mtime : FNode → Nat
  | .dir _ m => m
  | .file _ _ m => m
  | .symlink _ m => m

def FNode.isLink : FNode → Bool
  | .symlink _ _ => true
  | _ => false

theorem isDirAt_iff_tag (fs : Fs) (q : Slot) :
    isDirAt fs q ↔ (fs.find q).map FNode.tag = some 0 := by
  unfold isDirAt
  cases hf : fs.find q with
  | none => simp
  | some n => cases n <;> simp [FNode.tag]

/-- Pointwise shape growth: directories stay directories and occupied
slots stay occupied. -/
def kindsLe (fs fs' : Fs) : Prop :=
  ∀ q, (isDirAt fs q → isDirAt fs' q) ∧ ((fs.find q).isSome → (fs'.find q).isSome)

theorem kindsLe_refl (fs : Fs) : kindsLe fs fs := fun _ => ⟨id, id⟩

theorem kindsLe_trans {a b c : Fs} (h1 : kindsLe a b) (h2 : kindsLe b c) : kindsLe a c :=
  fun q => ⟨fun h => (h2 q).1 ((h1 q).1 h), fun h => (h2 q).2 ((h1 q).2 h)⟩

theorem kindsLe_touch (fs : Fs) (s : Slot) (now : Nat) : kindsLe fs (fs.touch s now) :=
  fun q => ⟨isDirAt_of_probe (fun q2 => (Fs.probe_touch fs s now q2).symm) q,
            isSome_of_probe (fun q2 => (Fs.probe_touch fs s now q2).symm) q⟩

/-- Replacing a node by one with the same constructor is shape growth. -/
theorem kindsLe_set_tag (fs : Fs) (s : Slot) (n n' : FNode)
    (hf : fs.find s = some n) (ht : n.tag = n'.tag) : kindsLe fs (fs.set s n') := by
  intro q
  by_cases hq : q = s
  · subst hq
    constructor
    · intro hd
      obtain ⟨pm, mt, hd⟩ := hd
      rw [hd] at hf
      cases hf
      cases n' <;> simp [FNode.tag] at ht
      exact ⟨_, _, by rw [Fs.find_set, if_pos rfl]⟩
    · intro _
      rw [Fs.find_set, if_pos rfl]
      rfl
  · rw [isDirAt_iff_tag, isDirAt_iff_tag, Fs.find_set, if_neg hq]
    exact ⟨id, id⟩

/-- Adding a node at an unoccupied slot is shape growth. -/
theorem kindsLe_cons_none (fs : Fs) (s : Slot) (n : FNode) (hf : fs.find s = none) :
    kindsLe fs ((s, n) :: fs) := by
  intro q
  by_cases hq : s = q
  · subst hq
    constructor
    · rintro ⟨pm, mt, hd⟩
      rw [hd] at hf
      cases hf
    · intro hs
      rw [hf] at hs
      simp at hs
  · rw [isDirAt_iff_tag, isDirAt_iff_tag, Fs.find_cons, if_neg hq]
    exact ⟨id, id⟩

/-- The proper-ancestor chain of a path: every nonempty proper prefix is a
directory and the path itself holds a node. -/
def chainOk (fs : Fs) (p : Slot) : Prop :=
  (∀ n, n + 1 < p.length → isDirAt fs (p.take (n + 1))) ∧ (fs.find p).isSome

theorem chainOk_mono {fs fs' : Fs} (h : kindsLe fs fs') {p : Slot} :
    chainOk fs p → chainOk fs' p :=
  fun hc => ⟨fun n hn => (h (p.take (n + 1))).1 (hc.1 n hn), (h p).2 hc.2⟩

theorem dropLast_getLastD : ∀ (p : Slot), p ≠ [] → ∀ d : String,
    p.dropLast ++ [p.getLastD d] = p := by
  intro p
  induction p with
  | nil => intro h; cases h rfl
  | cons a t ih =>
    intro _ d
    cases t with
    | nil => rfl
    | cons b u =>
      have h2 := ih (by simp) a
      simp only [List.getLastD_cons] at h2
      simp only [List.dropLast_cons₂, List.getLastD_cons, List.cons_append]
      rw [h2]

theorem take_dropLast_eq (p : Slot) (n : Nat) (hn : n + 1 < p.length) :
    p.dropLast.take (n + 1) = p.take (n + 1) := by
  rw [List.dropLast_eq_take, List.take_take]
  congr 1
  omega

/-- With every proper ancestor a directory, the parent of p resolves
lexically. -/
theorem chainOk_resolve (fs : Fs) (p : Slot) (hd : noDots p)
    (hc0 : ∀ n, n + 1 < p.length → isDirAt fs (p.take (n + 1))) (fuel : Nat) :
    resolveDir fs fuel [] p.dropLast = .ok p.dropLast := by
  apply resolveDir_lex
  · intro c hcm
    exact hd c (List.dropLast_sublist p |>.subset hcm)
  · intro n hn
    rw [List.length_dropLast] at hn
    rw [take_dropLast_eq p n (by omega)]
    exact hc0 n (by omega)

/-! ### Inversion of the extractor's filesystem operations -/

def FNode.withMtime : FNode → Nat → FNode
  | .dir pm _, t => .dir pm t
  | .file c pm _, t => .file c pm t
  | .symlink s _, t => .symlink s t

theorem withMtime_tag (n : FNode) (t : Nat) : (n.withMtime t).tag = n.tag := by
  cases n <;> rfl

theorem withMtime_mtime (n : FNode) (t : Nat) : (n.withMtime t).mtime = t := by
  cases n <;> rfl

theorem removeGo_inv {fs : Fs} {now : Nat} {p : Slot} {fs' : Fs}
    (h : removeGo fs now p = .ok fs') :
    ∃ rp, resolveDir fs fuelN [] p.dropLast = .ok rp ∧
      (fs.find (rp ++ [p.getLastD ""])).isSome ∧
      fs' = (fs.erase (rp ++ [p.getLastD ""])).touch rp now ∧
      (∀ pm mt, fs.find (rp ++ [p.getLastD ""]) = some (.dir pm mt) →
        fs.hasChild (rp ++ [p.getLastD ""]) = false) := by
  unfold removeGo at h
  split at h
  · simp at h
  · rename_i rp hr
    refine ⟨rp, hr, ?_⟩
    split at h
    · simp at h
    · rename_i pm mt hf
      split at h
      · simp at h
      · rename_i hch
        simp only [Except.ok.injEq] at h
        subst h
        exact ⟨by rw [hf]; rfl, rfl, fun pm2 mt2 _ => Bool.not_eq_true _ |>.mp hch⟩
    · rename_i val hnd hf
      simp only [Except.ok.injEq] at h
      subst h
      refine ⟨by rw [hf]; rfl, rfl, ?_⟩
      intro pm2 mt2 hh
      rw [hf] at hh
      injection hh with hh2
      exact (hnd pm2 mt2 hh2).elim

theorem symlinkGo_inv {fs : Fs} {now : Nat} {t : String} {p : Slot} {fs' : Fs}
    (h : symlinkGo fs now t p = .ok fs') :
    ∃ rp, resolveDir fs fuelN [] p.dropLast = .ok rp ∧
      fs.find (rp ++ [p.getLastD ""]) = none ∧
      fs' = Fs.touch ((rp ++ [p.getLastD ""], FNode.symlink t now) :: fs) rp now := by
  unfold symlinkGo at h
  split at h
  · simp at h
  · rename_i rp hr
    refine ⟨rp, hr, ?_⟩
    split at h
    · simp at h
    · rename_i hf
      simp only [Except.ok.injEq] at h
      exact ⟨hf, h.symm⟩

theorem lchtimesGo_inv {fs : Fs} {t : Nat} {p : Slot} {fs' : Fs}
    (h : lchtimesGo fs t p = .ok fs') :
    ∃ rp n, resolveDir fs fuelN [] p.dropLast = .ok rp ∧
      fs.find (rp ++ [p.getLastD ""]) = some n ∧
      fs' = fs.set (rp ++ [p.getLastD ""]) (n.withMtime t) := by
  unfold lchtimesGo at h
  split at h
  · simp at h
  · rename_i rp hr
    split at h
    · simp at h
    · rename_i pm mt hf
      simp only [Except.ok.injEq] at h
      exact ⟨rp, .dir pm mt, hr, hf, h.symm⟩
    · rename_i c pm mt hf
      simp only [Except.ok.injEq] at h
      exact ⟨rp, .file c pm mt, hr, hf, h.symm⟩
    · rename_i tt mt hf
      simp only [Except.ok.injEq] at h
      exact ⟨rp, .symlink tt mt, hr, hf, h.symm⟩

/-- lchmod can only rewrite one node's permission bits: constructors and
modification times are unchanged everywhere. -/
theorem lchmodGo_shape {fs : Fs} {b : Bool} {perm : Nat} {p : Slot} {fs' : Fs}
    (h : lchmodGo fs b perm p = .ok fs') :
    ∀ q, ((fs'.find q).map FNode.tag = (fs.find q).map FNode.tag) ∧
      ((fs'.find q).map FNode.mtime = (fs.find q).map FNode.mtime) := by
  unfold lchmodGo at h
  split at h
  · simp only [Except.ok.injEq] at h
    subst h
    exact fun q => ⟨rfl, rfl⟩
  · split at h
    · simp at h
    · rename_i slot hr
      split at h
      · simp at h
      · rename_i pm mt hf
        simp only [Except.ok.injEq] at h
        subst h
        intro q
        by_cases hq : q = slot
        · subst hq
          rw [Fs.find_set, if_pos rfl, hf]
          exact ⟨rfl, rfl⟩
        · rw [Fs.find_set, if_neg hq]
          exact ⟨rfl, rfl⟩
      · rename_i c pm mt hf
        simp only [Except.ok.injEq] at h
        subst h
        intro q
        by_cases hq : q = slot
        · subst hq
          rw [Fs.find_set, if_pos rfl, hf]
          exact ⟨rfl, rfl⟩
        · rw [Fs.find_set, if_neg hq]
          exact ⟨rfl, rfl⟩
      · simp only [Except.ok.injEq] at h
        subst h
        exact fun q => ⟨rfl, rfl⟩

theorem kindsLe_of_tagM {fs fs' : Fs}
    (h : ∀ q, (fs'.find q).map FNode.tag = (fs.find q).map FNode.tag) :
    kindsLe fs fs' := by
  intro q
  constructor
  · rw [isDirAt_iff_tag, isDirAt_iff_tag, h q]
    exact id
  · intro hs
    have h2 := h q
    cases hf : fs.find q with
    | none => rw [hf] at hs; simp at hs
    | some n =>
      rw [hf] at h2
      cases hf' : fs'.find q with
      | none => rw [hf'] at h2; simp at h2
      | some m => simp

theorem createDirectoryGo_inv {fs : Fs} {now : Nat} {p : Slot} {fs' : Fs}
    (h : createDirectoryGo fs now p = .ok fs') :
    ∃ rp, resolveDir fs fuelN [] p.dropLast = .ok rp ∧
      (((fs.find (rp ++ [p.getLastD ""])).isSome ∧ fs' = fs) ∨
        (fs.find (rp ++ [p.getLastD ""]) = none ∧
        fs' = Fs.touch ((rp ++ [p.getLastD ""], FNode.dir 511 now) :: fs) rp now)) := by
  unfold createDirectoryGo at h
  split at h
  · simp at h
  · rename_i rp hr
    refine ⟨rp, hr, ?_⟩
    split at h
    · rename_i n0 hf
      simp only [Except.ok.injEq] at h
      exact Or.inl ⟨by rw [hf]; rfl, h.symm⟩
    · rename_i hf
      simp only [Except.ok.injEq] at h
      exact Or.inr ⟨hf, h.symm⟩

/-! ### MkdirAll facts -/

theorem mkdirAllGo_cons (fs : Fs) (now : Nat) (cur : Slot) (c : String)
    (rest : List String) :
    mkdirAllGo fs now cur (c :: rest) =
      match fs.find (cur ++ [c]) with
      | some (.dir _ _) => mkdirAllGo fs now (cur ++ [c]) rest
      | some _ => (fs, some .notDir)
      | none =>
        mkdirAllGo (Fs.touch ((cur ++ [c], FNode.dir 511 now) :: fs) cur now)
          now (cur ++ [c]) rest := rfl

theorem mkdirAllGo_kindsLe (now : Nat) :
    ∀ (rest : List String) (cur : Slot) (fs : Fs),
    kindsLe fs (mkdirAllGo fs now cur rest).1 := by
  intro rest
  induction rest with
  | nil => intro cur fs; exact kindsLe_refl fs
  | cons c rest2 ih =>
    intro cur fs
    rw [mkdirAllGo_cons]
    split
    · exact ih (cur ++ [c]) fs
    · exact kindsLe_refl fs
    · rename_i hf
      exact kindsLe_trans (kindsLe_trans
        (kindsLe_cons_none fs (cur ++ [c]) (FNode.dir 511 now) hf)
        (kindsLe_touch _ cur now)) (ih (cur ++ [c]) _)

theorem mkdirAllGo_dirs (now : Nat) :
    ∀ (rest : List String) (cur : Slot) (fs fs' : Fs),
    mkdirAllGo fs now cur rest = (fs', none) →
    ∀ i, i < rest.length → isDirAt fs' (cur ++ rest.take (i + 1)) := by
  intro rest
  induction rest with
  | nil => intro cur fs fs' _ i hi; simp at hi
  | cons c rest2 ih =>
    intro cur fs fs' h i hi
    rw [mkdirAllGo_cons] at h
    split at h
    · rename_i pm mt hf
      cases i with
      | zero =>
        simp only [List.take_succ_cons, List.take_zero]
        have h1 : isDirAt fs (cur ++ [c]) := ⟨pm, mt, hf⟩
        have h2 := mkdirAllGo_kindsLe now rest2 (cur ++ [c]) fs
        rw [h] at h2
        exact (h2 (cur ++ [c])).1 h1
      | succ j =>
        have := ih (cur ++ [c]) fs fs' h j (by simpa using Nat.lt_of_succ_lt_succ hi)
        simpa [List.take_succ_cons, List.append_assoc] using this
    · simp at h
    · rename_i hf
      cases i with
      | zero =>
        simp only [List.take_succ_cons, List.take_zero]
        have h1 : isDirAt ((cur ++ [c], FNode.dir 511 now) :: fs) (cur ++ [c]) :=
          ⟨511, now, by rw [Fs.find_cons, if_pos rfl]⟩
        have h1b : isDirAt (Fs.touch ((cur ++ [c], FNode.dir 511 now) :: fs) cur now)
            (cur ++ [c]) :=
          isDirAt_of_probe (fun q => (Fs.probe_touch _ cur now q).symm) _ h1
        have h2 := mkdirAllGo_kindsLe now rest2 (cur ++ [c])
          (Fs.touch ((cur ++ [c], FNode.dir 511 now) :: fs) cur now)
        rw [h] at h2
        exact (h2 (cur ++ [c])).1 h1b
      | succ j =>
        have := ih (cur ++ [c]) _ fs' h j (by simpa using Nat.lt_of_succ_lt_succ hi)
        simpa [List.take_succ_cons, List.append_assoc] using this

theorem isDirAt_of_probe_at {fs fs' : Fs} {x : Slot} (h : fs.probe x = fs'.probe x) :
    isDirAt fs x → isDirAt fs' x := by
  rintro ⟨pm, mt, hf⟩
  simp only [Fs.probe, hf] at h
  cases hf' : fs'.find x with
  | none => rw [hf'] at h; simp [FNode.skel] at h
  | some n =>
    rw [hf'] at h
    cases n with
    | dir pm2 mt2 => exact ⟨pm2, mt2, hf'⟩
    | file c2 pm2 mt2 => simp [FNode.skel] at h
    | symlink t2 mt2 => simp [FNode.skel] at h

theorem isSome_of_probe_at {fs fs' : Fs} {x : Slot} (h : fs.probe x = fs'.probe x) :
    (fs.find x).isSome → (fs'.find x).isSome := by
  intro hs
  cases hf : fs.find x with
  | none => rw [hf] at hs; simp at hs
  | some n =>
    simp only [Fs.probe, hf] at h
    cases hf' : fs'.find x with
    | none => rw [hf'] at h; simp at h
    | some m => simp

theorem find_none_of_probe {fs : Fs} {x : Slot} (h : fs.probe x = none) :
    fs.find x = none := by
  unfold Fs.probe at h
  exact Option.map_eq_none'.mp h

theorem take_ne_self (q : Slot) (k : Nat) (hk : k < q.length) : q.take k ≠ q := by
  intro h
  have := congrArg List.length h
  simp at this
  omega

/-- Every nonempty proper prefix of a chained path has a child entry. -/
theorem chainOk_child (fs : Fs) (q r : Slot) (hc : chainOk fs q)
    (hpre : r <+: q) (hne : r ≠ q) : fs.hasChild r = true := by
  rw [Fs.hasChild_iff]
  have hlt : r.length < q.length := by
    rcases Nat.lt_or_ge r.length q.length with h | h
    · exact h
    · exact absurd (hpre.eq_of_length (Nat.le_antisymm hpre.length_le h)) hne
  have htake : r = q.take r.length := List.prefix_iff_eq_take.mp hpre
  have hconcat : ∃ c, q.take (r.length + 1) = r ++ [c] := by
    refine ⟨q.get ⟨r.length, hlt⟩, ?_⟩
    rw [List.take_succ, ← htake]
    congr 1
    rw [List.getElem?_eq_getElem hlt]
    rfl
  obtain ⟨c, hconcat⟩ := hconcat
  refine ⟨c, ?_⟩
  rw [← hconcat]
  rcases Nat.lt_or_ge (r.length + 1) q.length with h2 | h2
  · obtain ⟨pm, mt, hf⟩ := hc.1 r.length h2
    rw [hf]; rfl
  · rw [List.take_of_length_le h2]
    exact hc.2

/-- A slot removeGo can unlink is never a proper ancestor of a chained
path: such an ancestor is a directory with a child. -/
theorem chain_no_unlink (fs : Fs) (q r : Slot) (hc : chainOk fs q)
    (hpre : r <+: q) (hne : r ≠ q) (hrne : r ≠ [])
    (hnochild : ∀ pm mt, fs.find r = some (.dir pm mt) → fs.hasChild r = false) :
    False := by
  have hlt : r.length < q.length := by
    rcases Nat.lt_or_ge r.length q.length with h | h
    · exact h
    · exact absurd (hpre.eq_of_length (Nat.le_antisymm hpre.length_le h)) hne
  have hlen1 : 1 ≤ r.length := by
    cases r with
    | nil => cases hrne rfl
    | cons a t => simp
  obtain ⟨pm, mt, hf⟩ := hc.1 (r.length - 1) (by omega)
  have htk : q.take (r.length - 1 + 1) = r := by
    have := List.prefix_iff_eq_take.mp hpre
    rw [show r.length - 1 + 1 = r.length from by omega]
    exact this.symm
  rw [htk] at hf
  have h1 := hnochild pm mt hf
  have h2 := chainOk_child fs q r hc hpre hne
  rw [h1] at h2
  cases h2

theorem removeIgnore_ok {fs fs1 : Fs} {now : Nat} {p : Slot}
    (h : (match removeGo fs now p with
          | .error .notExist => .ok fs
          | r => r : Except Err Fs) = .ok fs1) :
    removeGo fs now p = .ok fs1 ∨ (removeGo fs now p = .error .notExist ∧ fs1 = fs) := by
  cases hrem : removeGo fs now p with
  | ok fsr =>
    rw [hrem] at h
    simp only [Except.ok.injEq] at h
    exact Or.inl (by rw [h])
  | error er =>
    rw [hrem] at h
    cases er <;> simp at h
    exact Or.inr ⟨rfl, h.symm⟩

theorem createFileGo_inv {fs : Fs} {now : Nat} {e : ZEntry} {p : Slot} {fs' : Fs}
    (h : createFileGo fs now e p = .ok fs') :
    ∃ fs1, (removeGo fs now p = .ok fs1 ∨
        (removeGo fs now p = .error .notExist ∧ fs1 = fs)) ∧
      ∃ rp, resolveDir fs1 fuelN [] p.dropLast = .ok rp ∧
        (∀ pm mt, fs1.find (rp ++ [p.getLastD ""]) ≠ some (.dir pm mt)) ∧
        fs' = Fs.touch (fs1.set (rp ++ [p.getLastD ""]) (.file e.content 438 now)) rp now := by
  unfold createFileGo at h
  split at h
  · simp at h
  · rename_i fs1 hig
    refine ⟨fs1, removeIgnore_ok hig, ?_⟩
    split at h
    · simp at h
    · rename_i rp hr
      refine ⟨rp, hr, ?_⟩
      split at h
      · simp at h
      · rename_i x hnd hf
        simp only [Except.ok.injEq] at h
        exact ⟨fun pm mt hcon => hf pm mt hcon, h.symm⟩

theorem updateFileMetadataGo_inv {fs : Fs} {e : ZEntry} {p : Slot} {fs' : Fs}
    (h : updateFileMetadataGo fs e p = .ok fs') :
    ∃ fs1, lchtimesGo fs e.mtime p = .ok fs1 ∧
      lchmodGo fs1 (e.kind = .symlink) e.perm p = .ok fs' := by
  unfold updateFileMetadataGo at h
  split at h
  · simp at h
  · rename_i fs1 ht
    exact ⟨fs1, ht, h⟩

theorem createSymlinkGo_inv {fs : Fs} {now : Nat} {e : ZEntry} {p : Slot} {fs' : Fs}
    (h : createSymlinkGo fs now e p = .ok fs') :
    ∃ fs1, (removeGo fs now p = .ok fs1 ∨
        (removeGo fs now p = .error .notExist ∧ fs1 = fs)) ∧
      ∃ fs2, symlinkGo fs1 now e.target p = .ok fs2 ∧
        updateFileMetadataGo fs2 e p = .ok fs' := by
  unfold createSymlinkGo at h
  split at h
  · simp at h
  · rename_i fs1 hig
    refine ⟨fs1, removeIgnore_ok hig, ?_⟩
    split at h
    · simp at h
    · rename_i fs2 hs
      exact ⟨fs2, hs, h⟩

theorem lchtimesGo_kindsLe {fs : Fs} {t : Nat} {p : Slot} {fs' : Fs}
    (h : lchtimesGo fs t p = .ok fs') : kindsLe fs fs' := by
  obtain ⟨rp, n, _, hf, hset⟩ := lchtimesGo_inv h
  rw [hset]
  exact kindsLe_set_tag fs _ n _ hf (withMtime_tag n t).symm

theorem updateFileMetadataGo_kindsLe {fs : Fs} {e : ZEntry} {p : Slot} {fs' : Fs}
    (h : updateFileMetadataGo fs e p = .ok fs') : kindsLe fs fs' := by
  obtain ⟨fs1, ht, hm⟩ := updateFileMetadataGo_inv h
  exact kindsLe_trans (lchtimesGo_kindsLe ht) (kindsLe_of_tagM (fun q => (lchmodGo_shape hm q).1))

/-! ### Chain preservation through the extractor operations -/

theorem Fs.probe_set (fs : Fs) (s : Slot) (n : FNode) (q : Slot) :
    (fs.set s n).probe q = if q = s then some n.skel else fs.probe q := by
  unfold Fs.probe
  rw [Fs.find_set]
  by_cases h : q = s <;> simp [h]

theorem chain_prefix_dir {fs : Fs} {q r : Slot} (hc : chainOk fs q) (hpre : r <+: q)
    (hne : r ≠ q) (hrne : r ≠ []) : isDirAt fs r := by
  have hlt : r.length < q.length := by
    rcases Nat.lt_or_ge r.length q.length with h | h
    · exact h
    · exact absurd (hpre.eq_of_length (Nat.le_antisymm hpre.length_le h)) hne
  have hlen1 : 1 ≤ r.length := by
    cases r with
    | nil => cases hrne rfl
    | cons a t => simp
  have htk : q.take (r.length - 1 + 1) = r := by
    have h2 := List.prefix_iff_eq_take.mp hpre
    rw [show r.length - 1 + 1 = r.length from by omega]
    exact h2.symm
  have := hc.1 (r.length - 1) (by omega)
  rwa [htk] at this

theorem chainOk_erase_touch (fs : Fs) (q r s : Slot) (now : Nat)
    (hc : chainOk fs q) (hnr : ¬ (r <+: q)) :
    chainOk ((fs.erase r).touch s now) q := by
  have hprobe : ∀ x, x <+: q → ((fs.erase r).touch s now).probe x = fs.probe x := by
    intro x hx
    rw [Fs.probe_touch, Fs.probe_erase, if_neg (fun hxr => hnr (by rw [← hxr]; exact hx))]
  constructor
  · intro n hn
    exact isDirAt_of_probe_at (hprobe (q.take (n + 1)) (List.take_prefix _ q)).symm
      (hc.1 n hn)
  · exact isSome_of_probe_at (hprobe q (List.prefix_refl q)).symm hc.2

theorem chainOk_set_touch (fs : Fs) (q r s : Slot) (n : FNode) (now : Nat)
    (hc : chainOk fs q) (hnr : ¬ (r <+: q)) :
    chainOk ((fs.set r n).touch s now) q := by
  have hprobe : ∀ x, x <+: q → ((fs.set r n).touch s now).probe x = fs.probe x := by
    intro x hx
    rw [Fs.probe_touch, Fs.probe_set, if_neg (fun hxr => hnr (by rw [← hxr]; exact hx))]
  constructor
  · intro k hk
    exact isDirAt_of_probe_at (hprobe (q.take (k + 1)) (List.take_prefix _ q)).symm
      (hc.1 k hk)
  · exact isSome_of_probe_at (hprobe q (List.prefix_refl q)).symm hc.2

theorem chainOk_set_self_touch (fs : Fs) (q s : Slot) (n : FNode) (now : Nat)
    (hlen : q ≠ []) (hpre : ∀ k, k + 1 < q.length → isDirAt fs (q.take (k + 1))) :
    chainOk ((fs.set q n).touch s now) q := by
  constructor
  · intro k hk
    refine isDirAt_of_probe_at ?_ (hpre k hk)
    rw [Fs.probe_touch, Fs.probe_set, if_neg (fun hcon => take_ne_self q (k + 1) hk hcon)]
  · have h1 : ((fs.set q n).find q).isSome := by
      rw [Fs.find_set, if_pos rfl]
      rfl
    exact (kindsLe_touch _ s now q).2 h1

/-- The remove-with-ENOENT-ignored step: either the chain survives, or the
tracked slot itself was unlinked (never a proper ancestor). -/
theorem removeStep_chain {fs fs1 : Fs} {now : Nat} {p q : Slot}
    (hrem : removeGo fs now p = .ok fs1 ∨
      (removeGo fs now p = .error .notExist ∧ fs1 = fs))
    (hc : chainOk fs q) :
    chainOk fs1 q ∨
      (∃ rp, resolveDir fs fuelN [] p.dropLast = .ok rp ∧ rp ++ [p.getLastD ""] = q ∧
        fs1 = (fs.erase q).touch rp now ∧
        (∀ n, n + 1 < q.length → isDirAt fs1 (q.take (n + 1))) ∧ fs1.find q = none) := by
  rcases hrem with hrem | ⟨_, hfs⟩
  · obtain ⟨rp, hr, hsome, hfs1, hnochild⟩ := removeGo_inv hrem
    by_cases hrq : (rp ++ [p.getLastD ""]) <+: q
    · have hreq : rp ++ [p.getLastD ""] = q := by
        by_contra hne
        exact chain_no_unlink fs q (rp ++ [p.getLastD ""]) hc hrq hne (by simp) hnochild
      right
      refine ⟨rp, hr, hreq, by rw [← hreq]; exact hfs1, ?_, ?_⟩
      · intro n hn
        have hprobe : fs1.probe (q.take (n + 1)) = fs.probe (q.take (n + 1)) := by
          rw [hfs1, hreq, Fs.probe_touch, Fs.probe_erase,
            if_neg (fun hcon => take_ne_self q (n + 1) hn hcon)]
        exact isDirAt_of_probe_at hprobe.symm (hc.1 n hn)
      · refine find_none_of_probe ?_
        rw [hfs1, hreq, Fs.probe_touch, Fs.probe_erase, if_pos rfl]
    · left
      rw [hfs1]
      exact chainOk_erase_touch fs q (rp ++ [p.getLastD ""]) rp now hc hrq
  · left
    rw [hfs]
    exact hc

theorem resolve_after_remove {fs : Fs} {q s rp rp2 : Slot} {now fuel : Nat}
    {w : List String}
    (hr : resolveDir fs fuel [] w = .ok rp)
    (hr2 : resolveDir ((fs.erase q).touch s now) fuel [] w = .ok rp2) : rp2 = rp := by
  have hcong : resolveDir ((fs.erase q).touch s now) fuel [] w
      = resolveDir (fs.erase q) fuel [] w :=
    resolveDir_congr _ _ (fun x => Fs.probe_touch _ _ _ x) fuel [] w
  rcases resolveDir_erase fs q fuel [] w with heq | ⟨e2, he⟩
  · rw [hcong, heq, hr] at hr2
    injection hr2 with h2
    exact h2.symm
  · rw [hcong, he] at hr2
    simp at hr2

theorem symlinkStep_chain {fs1 fs2 : Fs} {now : Nat} {t : String} {p q : Slot}
    (hsym : symlinkGo fs1 now t p = .ok fs2) (hc1 : chainOk fs1 q) : chainOk fs2 q := by
  obtain ⟨rp2, hr2, hnone, hfs2⟩ := symlinkGo_inv hsym
  rw [hfs2]
  exact chainOk_mono (kindsLe_trans (kindsLe_cons_none fs1 _ _ hnone)
    (kindsLe_touch _ _ _)) hc1

theorem symlinkStep_refill {fs fs1 fs2 : Fs} {now : Nat} {t : String} {p q rp : Slot}
    (hr : resolveDir fs fuelN [] p.dropLast = .ok rp)
    (hq : rp ++ [p.getLastD ""] = q)
    (hfs1 : fs1 = (fs.erase q).touch rp now)
    (hpre : ∀ n, n + 1 < q.length → isDirAt fs1 (q.take (n + 1)))
    (hsym : symlinkGo fs1 now t p = .ok fs2) : chainOk fs2 q := by
  obtain ⟨rp2, hr2, hnone, hfs2⟩ := symlinkGo_inv hsym
  rw [hfs1] at hr2
  have hrp2 : rp2 = rp := resolve_after_remove hr hr2
  rw [hrp2, hq] at hfs2
  constructor
  · intro n hn
    refine isDirAt_of_probe_at ?_ (hpre n hn)
    rw [hfs2, Fs.probe_touch]
    unfold Fs.probe
    rw [Fs.find_cons, if_neg (fun hcon => take_ne_self q (n + 1) hn hcon.symm)]
  · rw [hfs2]
    have h1 : (Fs.find ((q, FNode.symlink t now) :: fs1) q).isSome := by
      rw [Fs.find_cons, if_pos rfl]
      rfl
    exact (kindsLe_touch _ rp now q).2 h1

/-- A successful createSymlink keeps every chained path chained. -/
theorem createSymlinkGo_chain {fs : Fs} {now : Nat} {e : ZEntry} {p : Slot} {fs' : Fs}
    (h : createSymlinkGo fs now e p = .ok fs') (q : Slot) (hc : chainOk fs q) :
    chainOk fs' q := by
  obtain ⟨fs1, hrem, fs2, hsym, hmeta⟩ := createSymlinkGo_inv h
  have h2 : chainOk fs2 q := by
    rcases removeStep_chain hrem hc with h1 | ⟨rp, hr, hq, hfs1, hpre, _⟩
    · exact symlinkStep_chain hsym h1
    · exact symlinkStep_refill hr hq hfs1 hpre hsym
  exact chainOk_mono (updateFileMetadataGo_kindsLe hmeta) h2

/-- A successful createFile keeps every chained path chained. -/
theorem createFileGo_chain {fs : Fs} {now : Nat} {e : ZEntry} {p : Slot} {fs' : Fs}
    (h : createFileGo fs now e p = .ok fs') (q : Slot) (hc : chainOk fs q) :
    chainOk fs' q := by
  obtain ⟨fs1, hrem, rp2, hr2, hnd, hfs'⟩ := createFileGo_inv h
  rcases removeStep_chain hrem hc with h1 | ⟨rp, hr, hq, hfs1, hpre, hnone⟩
  · by_cases hr2q : (rp2 ++ [p.getLastD ""]) <+: q
    · by_cases hreq : rp2 ++ [p.getLastD ""] = q
      · rw [hfs', hreq]
        exact chainOk_set_self_touch fs1 q rp2 _ now
          (fun hcon => by rw [hcon] at hreq; simp at hreq) h1.1
      · obtain ⟨pm, mt, hf⟩ := chain_prefix_dir h1 hr2q hreq (by simp)
        exact absurd hf (fun hcon => hnd pm mt hcon)
    · rw [hfs']
      exact chainOk_set_touch fs1 q (rp2 ++ [p.getLastD ""]) rp2 _ now h1 hr2q
  · rw [hfs1] at hr2
    have hrp2 : rp2 = rp := resolve_after_remove hr hr2
    rw [hfs', hrp2, hq]
    exact chainOk_set_self_touch fs1 q rp _ now
      (fun hcon => by rw [hcon] at hq; simp at hq)
      hpre

theorem chainOk_cons_touch (fs : Fs) (q s : Slot) (n : FNode) (now : Nat)
    (hpre : ∀ k, k + 1 < q.length → isDirAt fs (q.take (k + 1))) :
    chainOk (Fs.touch ((q, n) :: fs) s now) q := by
  constructor
  · intro k hk
    refine isDirAt_of_probe_at ?_ (hpre k hk)
    rw [Fs.probe_touch]
    unfold Fs.probe
    rw [Fs.find_cons, if_neg (fun hcon => take_ne_self q (k + 1) hk hcon.symm)]
  · have h1 : (Fs.find ((q, n) :: fs) q).isSome := by
      rw [Fs.find_cons, if_pos rfl]
      rfl
    exact (kindsLe_touch _ s now q).2 h1

theorem createDirectoryGo_chain {fs : Fs} {now : Nat} {p : Slot} {fs' : Fs}
    (h : createDirectoryGo fs now p = .ok fs') (q : Slot) (hc : chainOk fs q) :
    chainOk fs' q := by
  obtain ⟨rp, hr, hcase⟩ := createDirectoryGo_inv h
  rcases hcase with ⟨_, rfl⟩ | ⟨hnone, hfs'⟩
  · exact hc
  · rw [hfs']
    exact chainOk_mono (kindsLe_trans (kindsLe_cons_none fs _ _ hnone)
      (kindsLe_touch _ _ _)) hc

theorem fileMeta_ok {fs1 fs2 : Fs} {now : Nat} {e : ZEntry} {p : Slot}
    (h : (match createFileGo fs1 now e p with
          | .error er => .error er
          | .ok fsa => updateFileMetadataGo fsa e p : Except Err Fs) = .ok fs2) :
    ∃ fsa, createFileGo fs1 now e p = .ok fsa ∧ updateFileMetadataGo fsa e p = .ok fs2 := by
  cases hcf : createFileGo fs1 now e p with
  | error er =>
    rw [hcf] at h
    exact Except.noConfusion (show (Except.error er : Except Err Fs) = Except.ok fs2 from h)
  | ok fsa =>
    rw [hcf] at h
    exact ⟨fsa, rfl, h⟩

/-! ### Phase 1: the chain invariant is established and kept -/

theorem phase1_cons (chroot : Slot) (now : Nat) (fs : Fs) (e : ZEntry)
    (rest : List ZEntry) :
    phase1 chroot now fs (e :: rest) =
      if e.kind = .irregular then phase1 chroot now fs rest
      else
        if extractCheck chroot (entryPath chroot e.name) = false then
          (fs, some .outsideChroot)
        else
          match mkdirAllGo fs now [] (entryPath chroot e.name).dropLast with
          | (fs1, some er) => (fs1, some er)
          | (fs1, none) =>
            match e.kind with
            | .symlink => phase1 chroot now fs1 rest
            | .directory =>
              match createDirectoryGo fs1 now (entryPath chroot e.name) with
              | .error er => (fs1, some er)
              | .ok fs2 => phase1 chroot now fs2 rest
            | _ =>
              match (match createFileGo fs1 now e (entryPath chroot e.name) with
                     | .error er => .error er
                     | .ok fs2 => updateFileMetadataGo fs2 e (entryPath chroot e.name)
                     : Except Err Fs) with
              | .error er => (fs1, some er)
              | .ok fs2 => phase1 chroot now fs2 rest := rfl

theorem phase1_pres (chroot : Slot) (now : Nat) :
    ∀ (es : List ZEntry) (fs fs' : Fs), phase1 chroot now fs es = (fs', none) →
    ∀ q, chainOk fs q → chainOk fs' q := by
  intro es
  induction es with
  | nil =>
    intro fs fs' h q hc
    unfold phase1 at h
    simp only [Prod.mk.injEq] at h
    rw [← h.1]
    exact hc
  | cons e0 rest ih =>
    intro fs fs' h q hc
    rw [phase1_cons] at h
    split at h
    · exact ih fs fs' h q hc
    · split at h
      · simp at h
      · split at h
        · simp at h
        · rename_i fs1 hm
          have hc1 : chainOk fs1 q := by
            have hkl := mkdirAllGo_kindsLe now (entryPath chroot e0.name).dropLast [] fs
            rw [hm] at hkl
            exact chainOk_mono hkl hc
          split at h
          · exact ih fs1 fs' h q hc1
          · split at h
            · simp at h
            · rename_i fs2 hcd
              exact ih fs2 fs' h q (createDirectoryGo_chain hcd q hc1)
          · split at h
            · simp at h
            · rename_i fs2 hcf
              obtain ⟨fsa, hf1, hf2⟩ := fileMeta_ok hcf
              exact ih fs2 fs' h q (chainOk_mono (updateFileMetadataGo_kindsLe hf2)
                (createFileGo_chain hf1 q hc1))

theorem phase1_ok_check (chroot : Slot) (now : Nat) :
    ∀ (es : List ZEntry) (fs fs' : Fs), phase1 chroot now fs es = (fs', none) →
    ∀ e ∈ es, e.kind ≠ .irregular →
    extractCheck chroot (entryPath chroot e.name) = true := by
  intro es
  induction es with
  | nil => intro fs fs' _ e he; cases he
  | cons e0 rest ih =>
    intro fs fs' h e he hirr
    rw [phase1_cons] at h
    rcases List.mem_cons.mp he with heq0 | hmem
    · subst heq0
      rw [if_neg hirr] at h
      by_cases hchk : extractCheck chroot (entryPath chroot e.name) = false
      · rw [if_pos hchk] at h
        simp at h
      · cases hB : extractCheck chroot (entryPath chroot e.name)
        · exact absurd hB hchk
        · rfl
    · split at h
      · exact ih fs fs' h e hmem hirr
      · split at h
        · simp at h
        · split at h
          · simp at h
          · rename_i fs1 hm
            split at h
            · exact ih fs1 fs' h e hmem hirr
            · split at h
              · simp at h
              · rename_i fs2 hcd
                exact ih fs2 fs' h e hmem hirr
            · split at h
              · simp at h
              · rename_i fs2 hcf
                exact ih fs2 fs' h e hmem hirr

/-- Phase 1 establishes the ancestor chain for every directory or regular
file entry it processed successfully. -/
theorem phase1_chain (chroot : Slot) (now : Nat) (hne : chroot ≠ [])
    (hch : goodPath chroot) :
    ∀ (es : List ZEntry) (fs fs' : Fs), phase1 chroot now fs es = (fs', none) →
    ∀ e ∈ es, e.kind ≠ .symlink → e.kind ≠ .irregular →
    chainOk fs' (entryPath chroot e.name) := by
  intro es
  induction es with
  | nil => intro fs fs' _ e he; cases he
  | cons e0 rest ih =>
    intro fs fs' h e he hsk hirr
    rw [phase1_cons] at h
    rcases List.mem_cons.mp he with heq0 | hmem
    · subst heq0
      rw [if_neg hirr] at h
      by_cases hchk : extractCheck chroot (entryPath chroot e.name) = false
      · rw [if_pos hchk] at h
        simp at h
      · rw [if_neg hchk] at h
        have hcheck : extractCheck chroot (entryPath chroot e.name) = true := by
          cases hB : extractCheck chroot (entryPath chroot e.name)
          · exact absurd hB hchk
          · rfl
        have hgp : goodPath (entryPath chroot e.name) := entryPath_good chroot e.name hch
        have hpref : chroot <+: entryPath chroot e.name :=
          (extractCheck_iff chroot _ hne hch hgp).mp hcheck
        have hpne : entryPath chroot e.name ≠ [] := by
          intro hcon
          rw [hcon] at hpref
          exact hne (List.prefix_nil.mp hpref)
        have hdots : noDots (entryPath chroot e.name) := entryPath_noDots chroot e.name
        split at h
        · simp at h
        · rename_i fs1 hm
          have hdirs1 : ∀ i, i < (entryPath chroot e.name).dropLast.length →
              isDirAt fs1 ((entryPath chroot e.name).dropLast.take (i + 1)) := by
            intro i hi
            have h2 := mkdirAllGo_dirs now _ [] fs fs1 hm i hi
            simpa using h2
          have hpre1 : ∀ n, n + 1 < (entryPath chroot e.name).length →
              isDirAt fs1 ((entryPath chroot e.name).take (n + 1)) := by
            intro n hn
            have h2 := hdirs1 n (by rw [List.length_dropLast]; omega)
            rwa [take_dropLast_eq _ n hn] at h2
          have hlex : resolveDir fs1 fuelN [] (entryPath chroot e.name).dropLast
              = .ok (entryPath chroot e.name).dropLast :=
            resolveDir_lex fs1 fuelN _
              (fun c hcm => hdots c (List.dropLast_sublist _ |>.subset hcm)) hdirs1
          have hslot : (entryPath chroot e.name).dropLast ++
              [(entryPath chroot e.name).getLastD ""] = entryPath chroot e.name :=
            dropLast_getLastD _ hpne ""
          split at h
          · rename_i hk
            exact absurd hk hsk
          · split at h
            · simp at h
            · rename_i fs2 hcd
              obtain ⟨rp, hr, hcase⟩ := createDirectoryGo_inv hcd
              rw [hlex] at hr
              injection hr with hrp
              have hc2 : chainOk fs2 (entryPath chroot e.name) := by
                rcases hcase with ⟨hsome, rfl⟩ | ⟨hnone, hfs2⟩
                · refine ⟨hpre1, ?_⟩
                  rw [← hrp, hslot] at hsome
                  exact hsome
                · rw [hfs2, ← hrp, hslot]
                  exact chainOk_cons_touch fs1 _ _ _ now hpre1
              exact phase1_pres chroot now rest fs2 fs' h _ hc2
          · split at h
            · simp at h
            · rename_i fs2 hcf
              obtain ⟨fsa, hf1, hf2⟩ := fileMeta_ok hcf
              obtain ⟨fs1b, hrem, rp2, hr2, hnd, hfsa⟩ := createFileGo_inv hf1
              have hpre1b : ∀ n, n + 1 < (entryPath chroot e.name).length →
                  isDirAt fs1b ((entryPath chroot e.name).take (n + 1)) := by
                rcases hrem with hrem | ⟨_, hfs⟩
                · obtain ⟨rp3, hr3, hsome3, hfs1b, _⟩ := removeGo_inv hrem
                  rw [hlex] at hr3
                  injection hr3 with hrp3
                  intro n hn
                  refine isDirAt_of_probe_at ?_ (hpre1 n hn)
                  rw [hfs1b, Fs.probe_touch, Fs.probe_erase, if_neg ?_]
                  intro hcon
                  have h3 : rp3 ++ [(entryPath chroot e.name).getLastD ""]
                      = entryPath chroot e.name := by
                    rw [← hrp3, hslot]
                  rw [h3] at hcon
                  exact take_ne_self _ (n + 1) hn hcon
                · rw [hfs]
                  exact hpre1
              have hlexb : resolveDir fs1b fuelN [] (entryPath chroot e.name).dropLast
                  = .ok (entryPath chroot e.name).dropLast := by
                refine resolveDir_lex fs1b fuelN _
                  (fun c hcm => hdots c (List.dropLast_sublist _ |>.subset hcm)) ?_
                intro i hi
                rw [List.length_dropLast] at hi
                rw [take_dropLast_eq _ i (by omega)]
                exact hpre1b i (by omega)
              rw [hlexb] at hr2
              injection hr2 with hrp2
              have hc2 : chainOk fsa (entryPath chroot e.name) := by
                rw [hfsa, ← hrp2, hslot]
                exact chainOk_set_self_touch fs1b _ _ _ now hpne hpre1b
              exact phase1_pres chroot now rest fs2 fs' h _
                (chainOk_mono (updateFileMetadataGo_kindsLe hf2) hc2)
    · split at h
      · exact ih fs fs' h e hmem hsk hirr
      · split at h
        · simp at h
        · split at h
          · simp at h
          · rename_i fs1 hm
            split at h
            · exact ih fs1 fs' h e hmem hsk hirr
            · split at h
              · simp at h
              · rename_i fs2 hcd
                exact ih fs2 fs' h e hmem hsk hirr
            · split at h
              · simp at h
              · rename_i fs2 hcf
                exact ih fs2 fs' h e hmem hsk hirr

/-! ### Phase 2: symlink creation below an occupied path must fail -/

theorem phase2_cons (chroot : Slot) (now : Nat) (fs : Fs) (e : ZEntry)
    (rest : List ZEntry) :
    phase2 chroot now fs (e :: rest) =
      if e.kind = .symlink then
        match createSymlinkGo fs now e (entryPath chroot e.name) with
        | .error er => (fs, some er)
        | .ok fs1 => phase2 chroot now fs1 rest
      else phase2 chroot now fs rest := rfl

theorem phase2_pres (chroot : Slot) (now : Nat) :
    ∀ (es : List ZEntry) (fs fs' : Fs), phase2 chroot now fs es = (fs', none) →
    ∀ q, chainOk fs q → chainOk fs' q := by
  intro es
  induction es with
  | nil =>
    intro fs fs' h q hc
    unfold phase2 at h
    simp only [Prod.mk.injEq] at h
    rw [← h.1]
    exact hc
  | cons e0 rest ih =>
    intro fs fs' h q hc
    rw [phase2_cons] at h
    split at h
    · split at h
      · simp at h
      · rename_i fs1 hcs
        exact ih fs1 fs' h q (createSymlinkGo_chain hcs q hc)
    · exact ih fs fs' h q hc

theorem removeGo_eq {fs : Fs} {now : Nat} {p rp : Slot}
    (hr : resolveDir fs fuelN [] p.dropLast = .ok rp) :
    removeGo fs now p =
      match fs.find (rp ++ [p.getLastD ""]) with
      | none => .error .notExist
      | some (.dir _ _) =>
        if fs.hasChild (rp ++ [p.getLastD ""]) then .error .notEmpty
        else .ok ((fs.erase (rp ++ [p.getLastD ""])).touch rp now)
      | some _ => .ok ((fs.erase (rp ++ [p.getLastD ""])).touch rp now) := by
  unfold removeGo
  rw [hr]

/-- Unlinking a proper ancestor of a chained path is ENOTEMPTY. -/
theorem removeGo_blocked {fs : Fs} {now : Nat} {p q : Slot}
    (hc : chainOk fs q) (hd : noDots p) (hpne : p ≠ [])
    (hpre : p <+: q) (hne : p ≠ q) :
    removeGo fs now p = .error .notEmpty := by
  have hlt : p.length < q.length := by
    rcases Nat.lt_or_ge p.length q.length with h | h
    · exact h
    · exact absurd (hpre.eq_of_length (Nat.le_antisymm hpre.length_le h)) hne
  have htake : p = q.take p.length := List.prefix_iff_eq_take.mp hpre
  have hdirs : ∀ i, i < p.dropLast.length → isDirAt fs (p.dropLast.take (i + 1)) := by
    intro i hi
    rw [List.length_dropLast] at hi
    rw [take_dropLast_eq p i (by omega)]
    have hq : p.take (i + 1) = q.take (i + 1) := by
      conv_lhs => rw [htake]
      rw [List.take_take]
      congr 1
      omega
    rw [hq]
    exact hc.1 i (by omega)
  have hlex := resolveDir_lex fs fuelN p.dropLast
    (fun c hcm => hd c (List.dropLast_sublist _ |>.subset hcm)) hdirs
  obtain ⟨pm, mt, hf⟩ := chain_prefix_dir hc hpre hne hpne
  have hchild := chainOk_child fs q p hc hpre hne
  rw [removeGo_eq hlex, dropLast_getLastD p hpne "", hf]
  simp [hchild]

/-- createSymlink at a proper ancestor of a chained path fails, and not
with ENOENT. -/
theorem createSymlinkGo_blocked {fs : Fs} {now : Nat} {e : ZEntry} {p q : Slot}
    (hc : chainOk fs q) (hd : noDots p) (hpne : p ≠ [])
    (hpre : p <+: q) (hne : p ≠ q) :
    createSymlinkGo fs now e p = .error .notEmpty := by
  unfold createSymlinkGo
  rw [removeGo_blocked hc hd hpne hpre hne]

theorem phase2_err (chroot : Slot) (now : Nat) :
    ∀ (es : List ZEntry) (fs : Fs) (q : Slot), chainOk fs q →
    ∀ s ∈ es, s.kind = .symlink →
    noDots (entryPath chroot s.name) → entryPath chroot s.name ≠ [] →
    entryPath chroot s.name <+: q → entryPath chroot s.name ≠ q →
    (phase2 chroot now fs es).2 ≠ none := by
  intro es
  induction es with
  | nil => intro fs q _ s hs; cases hs
  | cons e0 rest ih =>
    intro fs q hc s hs hsk hd hpne hpre hnsq
    rw [phase2_cons]
    rcases List.mem_cons.mp hs with heq0 | hmem
    · subst heq0
      rw [if_pos hsk, createSymlinkGo_blocked hc hd hpne hpre hnsq]
      simp
    · by_cases hk0 : e0.kind = .symlink
      · rw [if_pos hk0]
        cases hcs : createSymlinkGo fs now e0 (entryPath chroot e0.name) with
        | error er => simp
        | ok fs1 =>
          exact ih fs1 q (createSymlinkGo_chain hcs q hc) s hmem hsk hd hpne hpre hnsq
      · rw [if_neg hk0]
        exact ih fs q hc s hmem hsk hd hpne hpre hnsq

/-! ### Phase 3: the final metadata pass pins every directory mtime -/

theorem phase3_cons (chroot : Slot) (now : Nat) (fs : Fs) (e : ZEntry)
    (rest : List ZEntry) :
    phase3 chroot now fs (e :: rest) =
      if e.kind = .directory then
        match updateFileMetadataGo fs e (entryPath chroot e.name) with
        | .error er => (fs, some er)
        | .ok fs1 => phase3 chroot now fs1 rest
      else phase3 chroot now fs rest := rfl

theorem lchtimesGo_at {fs : Fs} {t : Nat} {p : Slot} {fs' : Fs}
    (h : lchtimesGo fs t p = .ok fs') (hc : chainOk fs p) (hd : noDots p)
    (hpne : p ≠ []) :
    ∃ n, fs.find p = some n ∧ fs' = fs.set p (n.withMtime t) := by
  obtain ⟨rp, n, hr, hf, hset⟩ := lchtimesGo_inv h
  have hlex := chainOk_resolve fs p hd hc.1 fuelN
  rw [hlex] at hr
  injection hr with hrp
  rw [← hrp, dropLast_getLastD p hpne ""] at hf hset
  exact ⟨n, hf, hset⟩

theorem phase3_keep (chroot : Slot) (now : Nat) :
    ∀ (es : List ZEntry) (fs fs' : Fs), phase3 chroot now fs es = (fs', none) →
    ∀ (p : Slot) (m : Nat), (fs.find p).map FNode.mtime = some m →
    (∀ e ∈ es, e.kind = .directory →
      chainOk fs (entryPath chroot e.name) ∧ entryPath chroot e.name ≠ p) →
    (∀ e ∈ es, e.kind = .directory →
      noDots (entryPath chroot e.name) ∧ entryPath chroot e.name ≠ []) →
    (fs'.find p).map FNode.mtime = some m := by
  intro es
  induction es with
  | nil =>
    intro fs fs' h p m hfind _ _
    unfold phase3 at h
    simp only [Prod.mk.injEq] at h
    rw [← h.1]
    exact hfind
  | cons e0 rest ih =>
    intro fs fs' h p m hfind hch0 hnd0
    rw [phase3_cons] at h
    split at h
    · rename_i hk0
      split at h
      · simp at h
      · rename_i fs1 hum
        obtain ⟨hc0, hnp0⟩ := hch0 e0 (List.mem_cons_self _ _) hk0
        obtain ⟨hd0, hpne0⟩ := hnd0 e0 (List.mem_cons_self _ _) hk0
        obtain ⟨fs1a, hlt, hlm⟩ := updateFileMetadataGo_inv hum
        obtain ⟨n, hfindn, hset⟩ := lchtimesGo_at hlt hc0 hd0 hpne0
        have hm1 : (fs1a.find p).map FNode.mtime = some m := by
          rw [hset, Fs.find_set, if_neg (fun hcon => hnp0 hcon.symm)]
          exact hfind
        have hm2 : (fs1.find p).map FNode.mtime = some m := by
          rw [(lchmodGo_shape hlm p).2]
          exact hm1
        have hkl := updateFileMetadataGo_kindsLe hum
        refine ih fs1 fs' h p m hm2 ?_ ?_
        · intro e2 he2 hk2
          obtain ⟨hc2, hnp2⟩ := hch0 e2 (List.mem_cons_of_mem _ he2) hk2
          exact ⟨chainOk_mono hkl hc2, hnp2⟩
        · intro e2 he2 hk2
          exact hnd0 e2 (List.mem_cons_of_mem _ he2) hk2
    · refine ih fs fs' h p m hfind ?_ ?_
      · intro e2 he2 hk2
        exact hch0 e2 (List.mem_cons_of_mem _ he2) hk2
      · intro e2 he2 hk2
        exact hnd0 e2 (List.mem_cons_of_mem _ he2) hk2

theorem phase3_mtime (chroot : Slot) (now : Nat) :
    ∀ (es : List ZEntry) (fs fs' : Fs), phase3 chroot now fs es = (fs', none) →
    es.Pairwise (fun a b => entryPath chroot a.name ≠ entryPath chroot b.name) →
    (∀ e ∈ es, e.kind = .directory →
      chainOk fs (entryPath chroot e.name) ∧ noDots (entryPath chroot e.name) ∧
      entryPath chroot e.name ≠ []) →
    ∀ e ∈ es, e.kind = .directory →
    (fs'.find (entryPath chroot e.name)).map FNode.mtime = some e.mtime := by
  intro es
  induction es with
  | nil => intro fs fs' _ _ _ e he; cases he
  | cons e0 rest ih =>
    intro fs fs' h hdist hchains e he hkd
    obtain ⟨hdhead, hdtail⟩ := List.pairwise_cons.mp hdist
    rw [phase3_cons] at h
    rcases List.mem_cons.mp he with heq0 | hmem
    · subst heq0
      rw [if_pos hkd] at h
      split at h
      · simp at h
      · rename_i fs1 hum
        obtain ⟨hc0, hd0, hpne0⟩ := hchains e (List.mem_cons_self _ _) hkd
        obtain ⟨fs1a, hlt, hlm⟩ := updateFileMetadataGo_inv hum
        obtain ⟨n, hfindn, hset⟩ := lchtimesGo_at hlt hc0 hd0 hpne0
        have hm1 : (fs1a.find (entryPath chroot e.name)).map FNode.mtime
            = some e.mtime := by
          rw [hset, Fs.find_set, if_pos rfl]
          simp [withMtime_mtime]
        have hm2 : (fs1.find (entryPath chroot e.name)).map FNode.mtime
            = some e.mtime := by
          rw [(lchmodGo_shape hlm _).2]
          exact hm1
        have hkl := updateFileMetadataGo_kindsLe hum
        refine phase3_keep chroot now rest fs1 fs' h _ e.mtime hm2 ?_ ?_
        · intro e2 he2 hk2
          obtain ⟨hc2, _, _⟩ := hchains e2 (List.mem_cons_of_mem _ he2) hk2
          exact ⟨chainOk_mono hkl hc2, fun hcon => hdhead e2 he2 hcon.symm⟩
        · intro e2 he2 hk2
          obtain ⟨_, hd2, hp2⟩ := hchains e2 (List.mem_cons_of_mem _ he2) hk2
          exact ⟨hd2, hp2⟩
    · split at h
      · rename_i hk0
        split at h
        · simp at h
        · rename_i fs1 hum
          have hkl := updateFileMetadataGo_kindsLe hum
          refine ih fs1 fs' h hdtail ?_ e hmem hkd
          intro e2 he2 hk2
          obtain ⟨hc2, hd2, hp2⟩ := hchains e2 (List.mem_cons_of_mem _ he2) hk2
          exact ⟨chainOk_mono hkl hc2, hd2, hp2⟩
      · refine ih fs fs' h hdtail ?_ e hmem hkd
        intro e2 he2 hk2
        exact hchains e2 (List.mem_cons_of_mem _ he2) hk2

/-! ### Splitting a successful extraction into its phases -/

theorem extractRun_split (chroot : Slot) (now : Nat) (entries : List ZEntry)
    (fs0 : Fs) :
    ∀ fsA oe1, phase1 chroot now fs0 entries = (fsA, oe1) →
    (oe1.isSome → extractRun chroot now entries fs0 = (fsA, oe1)) ∧
    (oe1 = none → ∀ fsB oe2, phase2 chroot now fsA entries = (fsB, oe2) →
      (oe2.isSome → extractRun chroot now entries fs0 = (fsB, oe2)) ∧
      (oe2 = none →
        extractRun chroot now entries fs0 = phase3 chroot now fsB entries)) := by
  intro fsA oe1 h1
  cases oe1 with
  | some er =>
    constructor
    · intro _
      unfold extractRun
      rw [h1]
    · intro hcon
      cases hcon
  | none =>
    constructor
    · intro hcon
      simp at hcon
    · intro _ fsB oe2 h2
      cases oe2 with
      | some er2 =>
        constructor
        · intro _
          unfold extractRun
          rw [h1]
          show (match phase2 chroot now fsA entries with
                | (fs, some er) => (fs, some er)
                | (fs, none) => phase3 chroot now fs entries) = (fsB, some er2)
          rw [h2]
        · intro hcon
          cases hcon
      | none =>
        constructor
        · intro hcon
          simp at hcon
        · intro _
          unfold extractRun
          rw [h1]
          show (match phase2 chroot now fsA entries with
                | (fs, some er) => (fs, some er)
                | (fs, none) => phase3 chroot now fs entries)
            = phase3 chroot now fsB entries
          rw [h2]

theorem extractRun_ok {chroot : Slot} {now : Nat} {entries : List ZEntry} {fs0 : Fs}
    (h : (extractRun chroot now entries fs0).2 = none) :
    ∃ fsA fsB, phase1 chroot now fs0 entries = (fsA, none) ∧
      phase2 chroot now fsA entries = (fsB, none) ∧
      extractRun chroot now entries fs0 = phase3 chroot now fsB entries := by
  cases h1 : phase1 chroot now fs0 entries with
  | mk fsA oe1 =>
    have hs := extractRun_split chroot now entries fs0 fsA oe1 h1
    cases oe1 with
    | some er =>
      rw [hs.1 (by simp)] at h
      simp at h
    | none =>
      cases h2 : phase2 chroot now fsA entries with
      | mk fsB oe2 =>
        have hs2 := hs.2 rfl fsB oe2 h2
        cases oe2 with
        | some er =>
          rw [hs2.1 (by simp)] at h
          simp at h
        | none => exact ⟨fsA, fsB, rfl, h2, hs2.2 rfl⟩

/-! ### Containment: only symlinks ever land outside the chroot -/

/-- No symlink anywhere (the state during phase 1). -/
def symFree (fs : Fs) : Prop := ∀ q n, fs.find q = some n → n.isLink = false

/-- Comparable with the chroot: inside it, or one of its ancestors. -/
def insideC (chroot q : Slot) : Prop := chroot <+: q ∨ q <+: chroot

/-- Every directory or regular file lives at a chroot-comparable slot. -/
def fdInside (chroot : Slot) (fs : Fs) : Prop :=
  ∀ q n, fs.find q = some n → n.isLink = false → insideC chroot q

theorem withMtime_isLink (n : FNode) (t : Nat) : (n.withMtime t).isLink = n.isLink := by
  cases n <;> rfl

theorem isLink_of_tag {n n2 : FNode} (h : n.tag = n2.tag) : n.isLink = n2.isLink := by
  cases n <;> cases n2 <;> first | rfl | simp [FNode.tag] at h

theorem isLinkM_of_tagM {fs fs' : Fs}
    (h : ∀ q, (fs'.find q).map FNode.tag = (fs.find q).map FNode.tag) :
    ∀ q, (fs'.find q).map FNode.isLink = (fs.find q).map FNode.isLink := by
  intro q
  have h2 := h q
  cases hf' : fs'.find q with
  | none =>
    rw [hf'] at h2
    cases hf : fs.find q with
    | none => rfl
    | some n => rw [hf] at h2; simp at h2
  | some n' =>
    rw [hf'] at h2
    cases hf : fs.find q with
    | none => rw [hf] at h2; simp at h2
    | some n =>
      rw [hf] at h2
      simp only [Option.map_some'] at h2 ⊢
      injection h2 with h3
      rw [isLink_of_tag h3]

theorem symFree_of_isLinkM {fs fs' : Fs}
    (hmap : ∀ q, (fs'.find q).map FNode.isLink = (fs.find q).map FNode.isLink)
    (h : symFree fs) : symFree fs' := by
  intro q n hf
  have h2 := hmap q
  rw [hf] at h2
  cases hf2 : fs.find q with
  | none => rw [hf2] at h2; simp at h2
  | some n2 =>
    rw [hf2] at h2
    simp only [Option.map_some'] at h2
    injection h2 with h3
    rw [h3]
    exact h q n2 hf2

theorem fdInside_of_isLinkM {chroot : Slot} {fs fs' : Fs}
    (hmap : ∀ q, (fs'.find q).map FNode.isLink = (fs.find q).map FNode.isLink)
    (h : fdInside chroot fs) : fdInside chroot fs' := by
  intro q n hf hl
  have h2 := hmap q
  rw [hf] at h2
  cases hf2 : fs.find q with
  | none => rw [hf2] at h2; simp at h2
  | some n2 =>
    rw [hf2] at h2
    simp only [Option.map_some'] at h2
    injection h2 with h3
    exact h q n2 hf2 (by rw [← h3]; exact hl)

theorem find_touch_isLink (fs : Fs) (s : Slot) (now : Nat) (q : Slot) :
    ((fs.touch s now).find q).map FNode.isLink = (fs.find q).map FNode.isLink := by
  unfold Fs.touch
  split
  · rename_i pm mt hf
    rw [Fs.find_set]
    by_cases hq : q = s
    · subst hq; rw [if_pos rfl, hf]; rfl
    · rw [if_neg hq]
  · rename_i c pm mt hf
    rw [Fs.find_set]
    by_cases hq : q = s
    · subst hq; rw [if_pos rfl, hf]; rfl
    · rw [if_neg hq]
  · rename_i t mt hf
    rw [Fs.find_set]
    by_cases hq : q = s
    · subst hq; rw [if_pos rfl, hf]; rfl
    · rw [if_neg hq]
  · rfl

theorem symFree_touch {fs : Fs} (h : symFree fs) (s : Slot) (now : Nat) :
    symFree (fs.touch s now) :=
  symFree_of_isLinkM (find_touch_isLink fs s now) h

theorem fdInside_touch {chroot : Slot} {fs : Fs} (h : fdInside chroot fs)
    (s : Slot) (now : Nat) : fdInside chroot (fs.touch s now) :=
  fdInside_of_isLinkM (find_touch_isLink fs s now) h

theorem symFree_erase {fs : Fs} (h : symFree fs) (s : Slot) : symFree (fs.erase s) := by
  intro q n hf
  rw [Fs.find_erase] at hf
  by_cases hq : q = s
  · rw [if_pos hq] at hf; cases hf
  · rw [if_neg hq] at hf
    exact h q n hf

theorem fdInside_erase {chroot : Slot} {fs : Fs} (h : fdInside chroot fs) (s : Slot) :
    fdInside chroot (fs.erase s) := by
  intro q n hf hl
  rw [Fs.find_erase] at hf
  by_cases hq : q = s
  · rw [if_pos hq] at hf; cases hf
  · rw [if_neg hq] at hf
    exact h q n hf hl

theorem symFree_cons {fs : Fs} (h : symFree fs) (s : Slot) (n : FNode)
    (hn : n.isLink = false) : symFree ((s, n) :: fs) := by
  intro q n2 hf
  rw [Fs.find_cons] at hf
  by_cases hq : s = q
  · rw [if_pos hq] at hf
    injection hf with h2
    rw [← h2]
    exact hn
  · rw [if_neg hq] at hf
    exact h q n2 hf

theorem fdInside_cons {chroot : Slot} {fs : Fs} (h : fdInside chroot fs) (s : Slot)
    (n : FNode) (hin : n.isLink = false → insideC chroot s) :
    fdInside chroot ((s, n) :: fs) := by
  intro q n2 hf hl
  rw [Fs.find_cons] at hf
  by_cases hq : s = q
  · rw [if_pos hq] at hf
    injection hf with h2
    rw [← hq]
    exact hin (by rw [h2]; exact hl)
  · rw [if_neg hq] at hf
    exact h q n2 hf hl

theorem symFree_set {fs : Fs} (h : symFree fs) (s : Slot) (n : FNode)
    (hn : n.isLink = false) : symFree (fs.set s n) :=
  symFree_cons (symFree_erase h s) s n hn

theorem fdInside_set {chroot : Slot} {fs : Fs} (h : fdInside chroot fs) (s : Slot)
    (n : FNode) (hin : n.isLink = false → insideC chroot s) :
    fdInside chroot (fs.set s n) :=
  fdInside_cons (fdInside_erase h s) s n hin

/-- Resolution in a symlink-free filesystem is lexical or fails. -/
theorem resolveDirStep_symFree (fs : Fs) (hsf : symFree fs)
    (onLink : Slot → List String → Except Err Slot) :
    ∀ (work cur : Slot), (∀ c ∈ work, c ≠ "." ∧ c ≠ "..") →
    resolveDirStep fs onLink cur work = .ok (cur ++ work) ∨
      ∃ e, resolveDirStep fs onLink cur work = .error e := by
  intro work
  induction work with
  | nil => intro cur _; exact Or.inl (by simp [resolveDirStep])
  | cons c rest ih =>
    intro cur hdots
    obtain ⟨hc1, hc2⟩ := hdots c (List.mem_cons_self _ _)
    unfold resolveDirStep
    rw [if_neg hc1, if_neg hc2]
    cases hf : fs.probe (cur ++ [c]) with
    | none => exact Or.inr ⟨.notExist, rfl⟩
    | some n =>
      cases n with
      | dir pm mt =>
        rcases ih (cur ++ [c]) (fun x hx => hdots x (List.mem_cons_of_mem _ hx))
          with h1 | ⟨e, h1⟩
        · left
          show resolveDirStep fs onLink (cur ++ [c]) rest = .ok (cur ++ c :: rest)
          rw [h1]
          simp
        · exact Or.inr ⟨e, h1⟩
      | file cc pm mt => exact Or.inr ⟨.notDir, rfl⟩
      | symlink t mt =>
        exfalso
        unfold Fs.probe at hf
        cases hff : fs.find (cur ++ [c]) with
        | none => rw [hff] at hf; simp at hf
        | some n2 =>
          rw [hff] at hf
          have hl := hsf _ _ hff
          cases n2 with
          | dir _ _ => simp [FNode.skel] at hf
          | file _ _ _ => simp [FNode.skel] at hf
          | symlink _ _ => simp [FNode.isLink] at hl

theorem resolveDir_symFree (fs : Fs) (hsf : symFree fs) (fuel : Nat) (work : Slot)
    (hdots : ∀ c ∈ work, c ≠ "." ∧ c ≠ "..") :
    resolveDir fs fuel [] work = .ok work ∨
      ∃ e, resolveDir fs fuel [] work = .error e := by
  cases fuel with
  | zero => simpa [resolveDir] using resolveDirStep_symFree fs hsf _ work [] hdots
  | succ f => simpa [resolveDir] using resolveDirStep_symFree fs hsf _ work [] hdots

theorem updateFileMetadataGo_isLinkM {fs : Fs} {e : ZEntry} {p : Slot} {fs' : Fs}
    (h : updateFileMetadataGo fs e p = .ok fs') :
    ∀ q, (fs'.find q).map FNode.isLink = (fs.find q).map FNode.isLink := by
  obtain ⟨fs1, hlt, hlm⟩ := updateFileMetadataGo_inv h
  obtain ⟨rp, n, hr, hf, hset⟩ := lchtimesGo_inv hlt
  intro q
  have h1 : (fs1.find q).map FNode.isLink = (fs.find q).map FNode.isLink := by
    rw [hset, Fs.find_set]
    by_cases hq : q = rp ++ [p.getLastD ""]
    · rw [if_pos hq, hq, hf]
      simp [withMtime_isLink]
    · rw [if_neg hq]
  rw [isLinkM_of_tagM (fun q2 => (lchmodGo_shape hlm q2).1) q, h1]

theorem mkdirAllGo_inside (chroot : Slot) (now : Nat) :
    ∀ (rest : List String) (cur : Slot) (fs : Fs),
    symFree fs → fdInside chroot fs →
    (∀ l, l <+: rest → insideC chroot (cur ++ l)) →
    symFree (mkdirAllGo fs now cur rest).1 ∧
      fdInside chroot (mkdirAllGo fs now cur rest).1 := by
  intro rest
  induction rest with
  | nil => intro cur fs hsf hfd _; exact ⟨hsf, hfd⟩
  | cons c rest2 ih =>
    intro cur fs hsf hfd hins
    rw [mkdirAllGo_cons]
    have hins2 : ∀ l, l <+: rest2 → insideC chroot ((cur ++ [c]) ++ l) := by
      intro l hl
      rw [List.append_assoc]
      exact hins ([c] ++ l) (List.cons_prefix_cons.mpr ⟨rfl, hl⟩)
    split
    · exact ih (cur ++ [c]) fs hsf hfd hins2
    · exact ⟨hsf, hfd⟩
    · rename_i hf
      refine ih (cur ++ [c]) _ ?_ ?_ hins2
      · exact symFree_touch (symFree_cons hsf _ (FNode.dir 511 now) rfl) cur now
      · refine fdInside_touch (fdInside_cons hfd _ _ ?_) cur now
        intro _
        exact hins [c] (by simp)

theorem createDirectoryGo_inside {chroot : Slot} {fs : Fs} {now : Nat} {p : Slot}
    {fs' : Fs} (h : createDirectoryGo fs now p = .ok fs') (hsf : symFree fs)
    (hfd : fdInside chroot fs) (hdots : noDots p) (hin : insideC chroot p)
    (hpne : p ≠ []) : symFree fs' ∧ fdInside chroot fs' := by
  obtain ⟨rp, hr, hcase⟩ := createDirectoryGo_inv h
  have hdl : ∀ c ∈ p.dropLast, c ≠ "." ∧ c ≠ ".." :=
    fun c hcm => hdots c (List.dropLast_sublist _ |>.subset hcm)
  have hrp : rp = p.dropLast := by
    rcases resolveDir_symFree fs hsf fuelN p.dropLast hdl with h1 | ⟨e, h1⟩
    · rw [h1] at hr
      injection hr with h2
      exact h2.symm
    · rw [h1] at hr
      exact Except.noConfusion hr
  rcases hcase with ⟨_, rfl⟩ | ⟨hnone, hfs'⟩
  · exact ⟨hsf, hfd⟩
  · rw [hfs', hrp, dropLast_getLastD p hpne ""]
    exact ⟨symFree_touch (symFree_cons hsf p (FNode.dir 511 now) rfl) _ now,
           fdInside_touch (fdInside_cons hfd p _ (fun _ => hin)) _ now⟩

theorem createFileGo_inside {chroot : Slot} {fs : Fs} {now : Nat} {e : ZEntry}
    {p : Slot} {fs' : Fs} (h : createFileGo fs now e p = .ok fs')
    (hsf : symFree fs) (hfd : fdInside chroot fs) (hdots : noDots p)
    (hin : insideC chroot p) (hpne : p ≠ []) : symFree fs' ∧ fdInside chroot fs' := by
  obtain ⟨fs1, hrem, rp2, hr2, hnd, hfs'⟩ := createFileGo_inv h
  have hstep : symFree fs1 ∧ fdInside chroot fs1 := by
    rcases hrem with hrem | ⟨_, rfl⟩
    · obtain ⟨rp, hr, _, hfs1, _⟩ := removeGo_inv hrem
      rw [hfs1]
      exact ⟨symFree_touch (symFree_erase hsf _) _ now,
             fdInside_touch (fdInside_erase hfd _) _ now⟩
    · exact ⟨hsf, hfd⟩
  have hdl : ∀ c ∈ p.dropLast, c ≠ "." ∧ c ≠ ".." :=
    fun c hcm => hdots c (List.dropLast_sublist _ |>.subset hcm)
  have hrp2 : rp2 = p.dropLast := by
    rcases resolveDir_symFree fs1 hstep.1 fuelN p.dropLast hdl with h1 | ⟨e2, h1⟩
    · rw [h1] at hr2
      injection hr2 with h2
      exact h2.symm
    · rw [h1] at hr2
      exact Except.noConfusion hr2
  rw [hfs', hrp2, dropLast_getLastD p hpne ""]
  exact ⟨symFree_touch (symFree_set hstep.1 p (FNode.file e.content 438 now) rfl) _ now,
         fdInside_touch (fdInside_set hstep.2 p _ (fun _ => hin)) _ now⟩

theorem phase1_inside (chroot : Slot) (now : Nat) (hne : chroot ≠ [])
    (hch : goodPath chroot) :
    ∀ (es : List ZEntry) (fs : Fs), symFree fs → fdInside chroot fs →
    symFree (phase1 chroot now fs es).1 ∧
      fdInside chroot (phase1 chroot now fs es).1 := by
  intro es
  induction es with
  | nil => intro fs hsf hfd; exact ⟨hsf, hfd⟩
  | cons e0 rest ih =>
    intro fs hsf hfd
    rw [phase1_cons]
    split
    · exact ih fs hsf hfd
    · split
      · exact ⟨hsf, hfd⟩
      · rename_i hirr hchkf
        have hcheck : extractCheck chroot (entryPath chroot e0.name) = true := by
          cases hB : extractCheck chroot (entryPath chroot e0.name)
          · exact absurd hB hchkf
          · rfl
        have hgp := entryPath_good chroot e0.name hch
        have hpref : chroot <+: entryPath chroot e0.name :=
          (extractCheck_iff chroot _ hne hch hgp).mp hcheck
        have hpne : entryPath chroot e0.name ≠ [] := by
          intro hcon
          rw [hcon] at hpref
          exact hne (List.prefix_nil.mp hpref)
        have hdots := entryPath_noDots chroot e0.name
        have hins : ∀ l, l <+: (entryPath chroot e0.name).dropLast →
            insideC chroot ([] ++ l) := by
          intro l hl
          simp only [List.nil_append]
          have hlp : l <+: entryPath chroot e0.name :=
            hl.trans (List.dropLast_prefix _)
          rcases List.prefix_or_prefix_of_prefix hpref hlp with h1 | h1
          · exact Or.inl h1
          · exact Or.inr h1
        have hmk := mkdirAllGo_inside chroot now
          (entryPath chroot e0.name).dropLast [] fs hsf hfd hins
        split
        · rename_i fs1 er hm
          rw [hm] at hmk
          exact hmk
        · rename_i fs1 hm
          rw [hm] at hmk
          split
          · exact ih fs1 hmk.1 hmk.2
          · split
            · exact hmk
            · rename_i fs2 hcd
              have h2 := createDirectoryGo_inside hcd hmk.1 hmk.2 hdots
                (Or.inl hpref) hpne
              exact ih fs2 h2.1 h2.2
          · split
            · exact hmk
            · rename_i fs2 hcf
              obtain ⟨fsa, hf1, hf2⟩ := fileMeta_ok hcf
              have h2 := createFileGo_inside hf1 hmk.1 hmk.2 hdots
                (Or.inl hpref) hpne
              have h3 := updateFileMetadataGo_isLinkM hf2
              exact ih fs2 (symFree_of_isLinkM h3 h2.1) (fdInside_of_isLinkM h3 h2.2)

theorem createSymlinkGo_fd {chroot : Slot} {fs : Fs} {now : Nat} {e : ZEntry}
    {p : Slot} {fs' : Fs} (h : createSymlinkGo fs now e p = .ok fs')
    (hfd : fdInside chroot fs) : fdInside chroot fs' := by
  obtain ⟨fs1, hrem, fs2, hsym, hmeta⟩ := createSymlinkGo_inv h
  have h1 : fdInside chroot fs1 := by
    rcases hrem with hrem | ⟨_, rfl⟩
    · obtain ⟨rp, _, _, hfs1, _⟩ := removeGo_inv hrem
      rw [hfs1]
      exact fdInside_touch (fdInside_erase hfd _) _ now
    · exact hfd
  obtain ⟨rp2, _, hnone, hfs2⟩ := symlinkGo_inv hsym
  have h2 : fdInside chroot fs2 := by
    rw [hfs2]
    refine fdInside_touch (fdInside_cons h1 _ _ ?_) _ now
    intro hcon
    cases hcon
  exact fdInside_of_isLinkM (updateFileMetadataGo_isLinkM hmeta) h2

theorem phase2_fd (chroot : Slot) (now : Nat) :
    ∀ (es : List ZEntry) (fs : Fs), fdInside chroot fs →
    fdInside chroot (phase2 chroot now fs es).1 := by
  intro es
  induction es with
  | nil => intro fs hfd; exact hfd
  | cons e0 rest ih =>
    intro fs hfd
    rw [phase2_cons]
    split
    · split
      · exact hfd
      · rename_i fs1 hcs
        exact ih fs1 (createSymlinkGo_fd hcs hfd)
    · exact ih fs hfd

theorem phase3_fd (chroot : Slot) (now : Nat) :
    ∀ (es : List ZEntry) (fs : Fs), fdInside chroot fs →
    fdInside chroot (phase3 chroot now fs es).1 := by
  intro es
  induction es with
  | nil => intro fs hfd; exact hfd
  | cons e0 rest ih =>
    intro fs hfd
    rw [phase3_cons]
    split
    · split
      · exact hfd
      · rename_i fs1 hum
        exact ih fs1 (fdInside_of_isLinkM (updateFileMetadataGo_isLinkM hum) hfd)
    · exact ih fs hfd

theorem find_mem {fs : Fs} {q : Slot} {n : FNode} (h : fs.find q = some n) :
    (q, n) ∈ fs := by
  induction fs with
  | nil => cases h
  | cons kv rest ih =>
    obtain ⟨k, m⟩ := kv
    rw [Fs.find_cons] at h
    by_cases hk : k = q
    · rw [if_pos hk] at h
      injection h with h2
      rw [← hk, ← h2]
      exact List.mem_cons_self _ _
    · rw [if_neg hk] at h
      exact List.mem_cons_of_mem _ (ih h)

theorem chrootFs_symFree (chroot : Slot) : symFree (chrootFs chroot) := by
  intro q n hf
  have hm := find_mem hf
  unfold chrootFs at hm
  rw [List.mem_map] at hm
  obtain ⟨i, _, heq⟩ := hm
  injection heq with h1 h2
  rw [← h2]
  rfl

theorem chrootFs_fd (chroot : Slot) : fdInside chroot (chrootFs chroot) := by
  intro q n hf _
  have hm := find_mem hf
  unfold chrootFs at hm
  rw [List.mem_map] at hm
  obtain ⟨i, _, heq⟩ := hm
  injection heq with h1 h2
  exact Or.inr (by rw [← h1]; exact List.take_prefix _ _)

/-- The containment half: no run ever leaves a directory or regular file
at a slot that is not chroot-comparable. -/
theorem extractRun_fd (chroot : Slot) (now : Nat) (entries : List ZEntry) (fs0 : Fs)
    (hne : chroot ≠ []) (hch : goodPath chroot) (hsf : symFree fs0)
    (hfd : fdInside chroot fs0) :
    fdInside chroot (extractRun chroot now entries fs0).1 := by
  cases h1 : phase1 chroot now fs0 entries with
  | mk fsA oe1 =>
    have hp1 := phase1_inside chroot now hne hch entries fs0 hsf hfd
    rw [h1] at hp1
    have hs := extractRun_split chroot now entries fs0 fsA oe1 h1
    cases oe1 with
    | some er =>
      rw [hs.1 (by simp)]
      exact hp1.2
    | none =>
      cases h2 : phase2 chroot now fsA entries with
      | mk fsB oe2 =>
        have hp2 := phase2_fd chroot now entries fsA hp1.2
        rw [h2] at hp2
        have hs2 := hs.2 rfl fsB oe2 h2
        cases oe2 with
        | some er =>
          rw [hs2.1 (by simp)]
          exact hp2
        | none =>
          rw [hs2.2 rfl]
          exact phase3_fd chroot now entries fsB hp2

/-! ### Claims C1 and C5 -/

/-- A symlink entry whose target climbs out of the chroot. -/
def eInner : ZEntry := ⟨"inner", .symlink, 511, 5, [], "../"⟩

/-- A symlink entry whose name traverses the first symlink. -/
def eVuln : ZEntry := ⟨"inner/vuln", .symlink, 511, 6, [], "x"⟩

/-- A regular-file entry whose name sits below the first symlink's path. -/
def eVulnF : ZEntry := ⟨"inner/vuln", .regular, 420, 6, [1, 2], ""⟩

/-- Claim C1 counterexample: the archive [inner -> ../, inner/vuln -> x]
extracted into chroot /c returns a nil error, although the second entry's
name traverses the first symlink, and it creates a symlink at /vuln,
outside the chroot: phase 2 creates inner -> ../ first, so the second
createSymlink resolves inner/vuln through it to /vuln. Both halves of the
claim fail. -/
theorem claim_C1_counterexample :
    (extractRun ["c"] 9 [eInner, eVuln] (chrootFs ["c"])).2 = none ∧
    ((extractRun ["c"] 9 [eInner, eVuln] (chrootFs ["c"])).1.find ["vuln"]).isSome
      = true ∧
    ¬ (["c"] <+: ["vuln"]) := by
  decide

/-- Claim C1 (amended): (a) when some entry's symlink path is a strict
ancestor of the cleaned path of a directory or regular-file entry,
Extract from a fresh chroot returns a non-nil error (phase 1 materialises
the deeper path, so phase 2's os.Remove of the ancestor fails ENOTEMPTY);
(b) directories and regular files are only ever created at
chroot-comparable paths - only symlink creation can escape. -/
theorem claim_C1_amended (chroot : Slot) (now : Nat) (entries : List ZEntry)
    (hne : chroot ≠ []) (hch : goodPath chroot) :
    (∀ s j, s ∈ entries → j ∈ entries → s.kind = .symlink →
      j.kind ≠ .symlink → j.kind ≠ .irregular →
      entryPath chroot s.name <+: entryPath chroot j.name →
      entryPath chroot s.name ≠ entryPath chroot j.name →
      (extractRun chroot now entries (chrootFs chroot)).2 ≠ none) ∧
    (∀ q n, (extractRun chroot now entries (chrootFs chroot)).1.find q = some n →
      n.isLink = false → chroot <+: q ∨ q <+: chroot) := by
  constructor
  · intro s j hs hj hsk hjk hjirr hpre hnsq hok
    obtain ⟨fsA, fsB, h1, h2, h3⟩ := extractRun_ok hok
    have hcA := phase1_chain chroot now hne hch entries (chrootFs chroot) fsA h1
      j hj hjk hjirr
    have hchks := phase1_ok_check chroot now entries _ fsA h1 s hs
      (by rw [hsk]; intro hcon; cases hcon)
    have hgps := entryPath_good chroot s.name hch
    have hprefs := (extractCheck_iff chroot _ hne hch hgps).mp hchks
    have hpnes : entryPath chroot s.name ≠ [] := by
      intro hcon
      rw [hcon] at hprefs
      exact hne (List.prefix_nil.mp hprefs)
    have hblock := phase2_err chroot now entries fsA (entryPath chroot j.name) hcA
      s hs hsk (entryPath_noDots chroot s.name) hpnes hpre hnsq
    rw [h2] at hblock
    exact hblock rfl
  · intro q n hf hl
    exact extractRun_fd chroot now entries (chrootFs chroot) hne hch
      (chrootFs_symFree chroot) (chrootFs_fd chroot) q n hf hl

/-- Witness for the amended C1 theorem: a symlink entry above a regular
file entry makes the extraction fail. -/
theorem claim_C1_amended_witness :
    (extractRun ["c"] 9 [eInner, eVulnF] (chrootFs ["c"])).2 ≠ none := by
  have h := claim_C1_amended ["c"] 9 [eInner, eVulnF] (by decide)
    (by unfold goodPath; decide)
  exact h.1 eInner eVulnF (by decide) (by decide) (by decide) (by decide)
    (by decide) (by decide) (by decide)

/-- Claim C5: after a successful Extract from a fresh chroot of an archive
whose entries have pairwise distinct cleaned paths, every directory entry's
node carries the entry's stored mtime: phase 3 re-applies directory
metadata after all files and symlinks exist, and nothing after an entry's
own phase-3 step writes that path's mtime again. -/
theorem claim_C5_dir_mtimes (chroot : Slot) (now : Nat) (entries : List ZEntry)
    (hne : chroot ≠ []) (hch : goodPath chroot)
    (hdist : entries.Pairwise
      (fun a b => entryPath chroot a.name ≠ entryPath chroot b.name))
    (hok : (extractRun chroot now entries (chrootFs chroot)).2 = none) :
    ∀ e ∈ entries, e.kind = .directory →
    ((extractRun chroot now entries (chrootFs chroot)).1.find
      (entryPath chroot e.name)).map FNode.mtime = some e.mtime := by
  intro e he hkd
  obtain ⟨fsA, fsB, h1, h2, h3⟩ := extractRun_ok hok
  have hfacts : ∀ e2 ∈ entries, e2.kind = .directory →
      chainOk fsB (entryPath chroot e2.name) ∧ noDots (entryPath chroot e2.name) ∧
      entryPath chroot e2.name ≠ [] := by
    intro e2 he2 hk2
    have hnsym : e2.kind ≠ .symlink := by rw [hk2]; intro hcon; cases hcon
    have hnirr : e2.kind ≠ .irregular := by rw [hk2]; intro hcon; cases hcon
    have hCA := phase1_chain chroot now hne hch entries (chrootFs chroot) fsA h1
      e2 he2 hnsym hnirr
    have hCB := phase2_pres chroot now entries fsA fsB h2 _ hCA
    have hchk := phase1_ok_check chroot now entries _ fsA h1 e2 he2 hnirr
    have hgp := entryPath_good chroot e2.name hch
    have hpref := (extractCheck_iff chroot _ hne hch hgp).mp hchk
    have hpne : entryPath chroot e2.name ≠ [] := by
      intro hcon
      rw [hcon] at hpref
      exact hne (List.prefix_nil.mp hpref)
    exact ⟨hCB, entryPath_noDots chroot e2.name, hpne⟩
  rw [h3] at hok ⊢
  cases h4 : phase3 chroot now fsB entries with
  | mk fsC oe3 =>
    rw [h4] at hok
    have hoe : oe3 = none := by simpa using hok
    subst hoe
    exact phase3_mtime chroot now entries fsB fsC h4 hdist hfacts e he hkd

/-- The directory entry of the C5 witness archive. -/
def eParent : ZEntry := ⟨"parent_dir", .directory, 493, 1552660200, [], ""⟩

/-- A regular file inside the witness directory. -/
def eFileW : ZEntry := ⟨"parent_dir/file.txt", .regular, 420, 1552660300, [104, 105], ""⟩

/-- A symlink created inside the witness directory during phase 2. -/
def eSymW : ZEntry := ⟨"parent_dir/link", .symlink, 511, 1552660400, [], "file.txt"⟩

/-- Witness for claim C5: the directory regains its stored mtime although
phase 2 created a symlink inside it afterwards. -/
theorem claim_C5_dir_mtimes_witness :
    ((extractRun ["c"] 9 [eParent, eFileW, eSymW] (chrootFs ["c"])).1.find
      ["c", "parent_dir"]).map FNode.mtime = some 1552660200 := by
  have h := claim_C5_dir_mtimes ["c"] 9 [eParent, eFileW, eSymW] (by decide)
    (by unfold goodPath; decide) (by decide) (by decide) eParent (by decide) (by decide)
  exact h
